import Mathlib

/-!
Verification development for the ollama-cli turn-execution engine.

The definitions below are a shallow embedding, translated from the
TypeScript sources:

* `packages/core/src/adapters/ollamaToolCallParser.ts` — the tool-call
  extractor (`parseToolCalls`, `hasToolCalls` and their helpers).  The
  JavaScript regular expressions used there are hand-compiled into
  character-level scanners over `List Char` that reproduce the JS
  semantics (leftmost match, greedy/lazy quantifiers with backtracking,
  the `g`-flag `exec` loop restarting at the end of each match).
* `packages/core/src/adapters/ollamaContentGenerator.ts` — response
  conversion and the newline-delimited streaming loop.
* the session hook (turn processor): `processOllamaStreamEvents`,
  `submitQuery`, `streamingState` and `handleCompletedTools`.

`JSON.parse` is embedded as a recursive-descent parser for ECMA-404
JSON over `List Char` (objects, arrays, strings with the standard
escapes, integer/fraction/exponent number lexemes kept as their source
text, `true`/`false`/`null`), with last-occurrence-wins duplicate
object keys, as in JavaScript.  Surrogate `\u` escapes outside the
Lean `Char` range are mapped through `Char.ofNat`'s default; no claim
below depends on them.
-/

namespace OllamaCli

/-- The JavaScript whitespace class: the regex class `\s` and the set
trimmed by `String.prototype.trim`. -/
def isJsWs (c : Char) : Bool :=
  c = ' ' || c = '\t' || c = '\n' || c = '\r' || c.val = 11 || c.val = 12 ||
  c.val = 0xa0 || c.val = 0x1680 || (0x2000 ≤ c.val && c.val ≤ 0x200a) ||
  c.val = 0x2028 || c.val = 0x2029 || c.val = 0x202f || c.val = 0x205f ||
  c.val = 0x3000 || c.val = 0xfeff

/-- JSON (ECMA-404) whitespace, skipped by `JSON.parse`. -/
def isJsonWs (c : Char) : Bool :=
  c = ' ' || c = '\t' || c = '\n' || c = '\r'

/-- The regex word class `\w`. -/
def isWordChar (c : Char) : Bool :=
  ('a' ≤ c && c ≤ 'z') || ('A' ≤ c && c ≤ 'Z') || ('0' ≤ c && c ≤ '9') || c = '_'

/-- Drop a literal pattern from the front of the input, returning the rest. -/
def stripLit : List Char → List Char → Option (List Char)
  | [], l => some l
  | _ :: _, [] => none
  | p :: ps, c :: cs => if c = p then stripLit ps cs else none

/-- Skip a (greedy) run of JS whitespace. -/
def skipJsWs : List Char → List Char
  | [] => []
  | c :: cs => if isJsWs c then skipJsWs cs else c :: cs

/-- Skip JSON whitespace. -/
def skipJsonWs : List Char → List Char
  | [] => []
  | c :: cs => if isJsonWs c then skipJsonWs cs else c :: cs

/-- Does `p` hold of some suffix of the input (including the empty suffix)? -/
def anyPos (p : List Char → Bool) : List Char → Bool
  | [] => p []
  | c :: cs => p (c :: cs) || anyPos p cs

/-- `String.prototype.includes`: the pattern occurs as a contiguous substring. -/
def containsSub (pat : List Char) (l : List Char) : Bool :=
  anyPos (fun s => (stripLit pat s).isSome) l

/-- `String.prototype.trim`. -/
def jsTrim (l : List Char) : List Char :=
  skipJsWs ((skipJsWs l.reverse).reverse)

/-- JavaScript values produced by `JSON.parse`, as needed by the adapter
layer.  Number literals keep their source lexeme. -/
inductive JValue where
  | str (s : String)
  | num (lexeme : String)
  | bool (b : Bool)
  | null
  | arr (elems : List JValue)
  | obj (fields : List (String × JValue))

/-- JavaScript property assignment `o[k] = v` on a plain object: an
existing key keeps its position and gets the new value, a new key is
appended.  `JSON.parse` resolves duplicate keys the same way. -/
def objAssign (k : String) (v : JValue) : List (String × JValue) → List (String × JValue)
  | [] => [(k, v)]
  | (k', v') :: fs => if k' = k then (k', v) :: fs else (k', v') :: objAssign k v fs

/-- JavaScript property read `o[k]` on a plain object (`none` = `undefined`). -/
def jsGet : List (String × JValue) → String → Option JValue
  | [], _ => none
  | (k', v) :: fs, k => if k' = k then some v else jsGet fs k

/-- Is every digit of the mantissa of a number lexeme `0`?  (Such lexemes
denote the JavaScript number `0`.) -/
def mantissaAllZero (lex : String) : Bool :=
  (lex.data.takeWhile (fun c => !(c = 'e' || c = 'E'))).all
    (fun c => !c.isDigit || c = '0')

/-- JavaScript truthiness of a possibly-absent parsed value
(`none` = `undefined`). -/
def jsTruthy : Option JValue → Bool
  | none => false
  | some (.str s) => s != ""
  | some (.num lex) => !mantissaAllZero lex
  | some (.bool b) => b
  | some .null => false
  | some (.arr _) => true
  | some (.obj _) => true

/-- `Object.entries`, for the values it is applied to in
`normalizeArguments`: own enumerable entries of objects, index entries of
arrays and strings, nothing for primitives. -/
def jsEntries : JValue → List (String × JValue)
  | .obj fs => fs
  | .arr xs => xs.enum.map (fun p => (toString p.1, p.2))
  | .str s => s.data.enum.map (fun p => (toString p.1, .str (String.mk [p.2])))
  | _ => []

/-- Value of a hexadecimal digit (code points 48-57 are the decimal
digits, 97-102 the lowercase and 65-70 the uppercase hex letters). -/
def hexVal (c : Char) : Option Nat :=
  let n := c.toNat
  if 48 ≤ n ∧ n ≤ 57 then some (n - 48)
  else if 97 ≤ n ∧ n ≤ 102 then some (n - 87)
  else if 65 ≤ n ∧ n ≤ 70 then some (n - 55)
  else none

/-- Body of a JSON string, after the opening quote: returns the decoded
characters and the input after the closing quote. -/
def parseStrChars : List Char → Option (List Char × List Char)
  | [] => none
  | c :: cs =>
    if c = '"' then some ([], cs)
    else if c = '\\' then
      match cs with
      | [] => none
      | e :: cs' =>
        if e = '"' then (parseStrChars cs').map (fun p => ('"' :: p.1, p.2))
        else if e = '\\' then (parseStrChars cs').map (fun p => ('\\' :: p.1, p.2))
        else if e = '/' then (parseStrChars cs').map (fun p => ('/' :: p.1, p.2))
        else if e = 'b' then (parseStrChars cs').map (fun p => (Char.ofNat 8 :: p.1, p.2))
        else if e = 'f' then (parseStrChars cs').map (fun p => (Char.ofNat 12 :: p.1, p.2))
        else if e = 'n' then (parseStrChars cs').map (fun p => ('\n' :: p.1, p.2))
        else if e = 'r' then (parseStrChars cs').map (fun p => ('\r' :: p.1, p.2))
        else if e = 't' then (parseStrChars cs').map (fun p => ('\t' :: p.1, p.2))
        else if e = 'u' then
          match cs' with
          | h1 :: h2 :: h3 :: h4 :: cs'' =>
            match hexVal h1, hexVal h2, hexVal h3, hexVal h4 with
            | some a, some b, some c3, some d =>
              (parseStrChars cs'').map
                (fun p => (Char.ofNat (((a * 16 + b) * 16 + c3) * 16 + d) :: p.1, p.2))
            | _, _, _, _ => none
          | _ => none
        else none
    else if c.val < 0x20 then none
    else (parseStrChars cs).map (fun p => (c :: p.1, p.2))

/-- The digits of a JSON integer part: `0` alone, or a nonzero digit
followed by any digits. -/
def parseIntDigits : List Char → Option (List Char × List Char)
  | [] => none
  | c :: cs =>
    if c = '0' then some (['0'], cs)
    else if c.isDigit then
      some (c :: cs.takeWhile Char.isDigit, cs.dropWhile Char.isDigit)
    else none

/-- An optional JSON fraction part (`.` with at least one digit; a bare
`.` is a syntax error, its absence is fine). -/
def parseFracPart : List Char → Option (List Char × List Char)
  | '.' :: cs =>
    let ds := cs.takeWhile Char.isDigit
    if ds = [] then none else some ('.' :: ds, cs.dropWhile Char.isDigit)
  | cs => some ([], cs)

/-- An optional JSON exponent part (`e`/`E`, optional sign, at least one
digit; a dangling exponent marker is a syntax error). -/
def parseExpPart : List Char → Option (List Char × List Char)
  | e :: cs =>
    if e = 'e' || e = 'E' then
      let (es, cs1) := match cs with
        | s :: cs' => if s = '+' || s = '-' then ([s], cs') else (([] : List Char), s :: cs')
        | [] => (([] : List Char), ([] : List Char))
      let ds := cs1.takeWhile Char.isDigit
      if ds = [] then none
      else some (e :: es ++ ds, cs1.dropWhile Char.isDigit)
    else some ([], e :: cs)
  | [] => some ([], [])

/-- A JSON number lexeme: optional minus, integer part, optional
fraction, optional exponent.  Returns the lexeme and the rest. -/
def parseNumLex (l : List Char) : Option (List Char × List Char) :=
  let (sign, l1) := match l with
    | '-' :: cs => (['-'], cs)
    | cs => (([] : List Char), cs)
  match parseIntDigits l1 with
  | none => none
  | some (ip, l2) =>
    match parseFracPart l2 with
    | none => none
    | some (fp, l3) =>
      match parseExpPart l3 with
      | none => none
      | some (ep, l4) => some (sign ++ ip ++ fp ++ ep, l4)

mutual

/-- `JSON.parse`'s value grammar, fuelled (the fuel strictly decreases on
every recursive call; `jsonParse` supplies enough of it). -/
def parseVal : Nat → List Char → Option (JValue × List Char)
  | 0, _ => none
  | _ + 1, [] => none
  | fuel + 1, c :: cs =>
    if c = '"' then (parseStrChars cs).map (fun p => (.str (String.mk p.1), p.2))
    else if c = Char.ofNat 123 then parseObjBody fuel (skipJsonWs cs)
    else if c = '[' then parseArrBody fuel (skipJsonWs cs)
    else if c = 't' then (stripLit ['r', 'u', 'e'] cs).map (fun r => (.bool true, r))
    else if c = 'f' then (stripLit ['a', 'l', 's', 'e'] cs).map (fun r => (.bool false, r))
    else if c = 'n' then (stripLit ['u', 'l', 'l'] cs).map (fun r => (.null, r))
    else (parseNumLex (c :: cs)).map (fun p => (.num (String.mk p.1), p.2))

/-- Object body, after the opening brace and whitespace. -/
def parseObjBody : Nat → List Char → Option (JValue × List Char)
  | 0, _ => none
  | _ + 1, [] => none
  | fuel + 1, c :: cs =>
    if c = Char.ofNat 125 then some (.obj [], cs)
    else parseMembers fuel (c :: cs) []

/-- Object members: `"key" : value` separated by commas, closed by a
brace; duplicate keys follow JavaScript assignment. -/
def parseMembers : Nat → List Char → List (String × JValue) → Option (JValue × List Char)
  | 0, _, _ => none
  | fuel + 1, l, acc =>
    match l with
    | '"' :: cs =>
      match parseStrChars cs with
      | none => none
      | some (k, r1) =>
        match skipJsonWs r1 with
        | ':' :: r2 =>
          match parseVal fuel (skipJsonWs r2) with
          | none => none
          | some (v, r3) =>
            let acc' := objAssign (String.mk k) v acc
            match skipJsonWs r3 with
            | ',' :: r4 => parseMembers fuel (skipJsonWs r4) acc'
            | d :: r4 =>
              if d = Char.ofNat 125 then some (.obj acc', r4) else none
            | [] => none
        | _ => none
    | _ => none

/-- Array body, after the opening bracket and whitespace. -/
def parseArrBody : Nat → List Char → Option (JValue × List Char)
  | 0, _ => none
  | _ + 1, [] => none
  | fuel + 1, c :: cs =>
    if c = ']' then some (.arr [], cs)
    else parseElems fuel (c :: cs) []

/-- Array elements separated by commas, closed by a bracket. -/
def parseElems : Nat → List Char → List JValue → Option (JValue × List Char)
  | 0, _, _ => none
  | fuel + 1, l, acc =>
    match parseVal fuel l with
    | none => none
    | some (v, r1) =>
      match skipJsonWs r1 with
      | ',' :: r2 => parseElems fuel (skipJsonWs r2) (acc ++ [v])
      | ']' :: r2 => some (.arr (acc ++ [v]), r2)
      | _ => none

end

/-- `JSON.parse`: parse one value surrounded by whitespace; anything left
over is a syntax error (`none` models the thrown `SyntaxError`). -/
def jsonParse (l : List Char) : Option JValue :=
  match parseVal (2 * l.length + 2) (skipJsonWs l) with
  | some (v, r) => if skipJsonWs r = [] then some v else none
  | none => none

/-! ## The `g`-flag `exec` loop

A JavaScript `while ((m = pattern.exec(text)))` loop finds the leftmost
match starting at or after `lastIndex` and continues from the end of the
match.  `scanAll f l` mirrors this: try the matcher at each position,
and on a match continue with the returned rest.  None of the embedded
patterns can match the empty string, so `lastIndex` always advances; the
`r.length < l.length` guard in `scanStep` records that fact (it never
fires for the matchers below). -/

/-- One attempt of the matcher at the current position. -/
def scanStep (f : List Char → Option (α × List Char)) (l : List Char) :
    Option (α × List Char) :=
  (f l).bind (fun p => if p.2.length < l.length then some p else none)

/-- Fuelled scan loop (the fuel strictly decreases at every step). -/
def scanGo (f : List Char → Option (α × List Char)) : Nat → List Char → List α
  | 0, _ => []
  | _ + 1, [] => []
  | fuel + 1, c :: cs =>
    (scanStep f (c :: cs)).elim (scanGo f fuel cs)
      (fun p => p.1 :: scanGo f fuel p.2)

/-- All matches of `f` over `l`, leftmost first, restarting after each
match, as the JS `g`-flag `exec` loop does. -/
def scanAll (f : List Char → Option (α × List Char)) (l : List Char) : List α :=
  scanGo f (l.length + 1) l

/-- Candidate rests of a greedy `X*` character-class run, longest
consumption first (the backtracking order of a greedy quantifier). -/
def greedySplits (p : Char → Bool) (l : List Char) : List (List Char) :=
  (List.range ((l.takeWhile p).length + 1)).reverse.map (fun k => l.drop k)

/-- First candidate on which the continuation succeeds (the backtracking
search over one choice point). -/
def firstSome : List α → (α → Option β) → Option β
  | [], _ => none
  | x :: xs, g => match g x with | some b => some b | none => firstSome xs g

/-! ## Matchers for the five regular expressions of
`ollamaToolCallParser.ts`, hand-compiled from the patterns. -/

/-- The closing-delimiter tail `\s*<\/(?:xml|tools)>` of `xmlPattern`. -/
def closeTagAfterWs (l : List Char) : Option (List Char) :=
  match stripLit "</xml>".data (skipJsWs l) with
  | some r => some r
  | none => stripLit "</tools>".data (skipJsWs l)

/-- The lazy body `[\s\S]*?\}` of `xmlPattern`: the shortest body such
that a `}` followed by optional whitespace and a closing delimiter
follows.  Returns the body (without the `}`) and the rest after the
closing delimiter. -/
def lazyClose : List Char → Option (List Char × List Char)
  | [] => none
  | c :: cs =>
    if c = Char.ofNat 125 then
      match closeTagAfterWs cs with
      | some rest => some ([], rest)
      | none => (lazyClose cs).map (fun p => (c :: p.1, p.2))
    else (lazyClose cs).map (fun p => (c :: p.1, p.2))

/-- `xmlPattern`, `/<(?:xml|tools)>\s*(\{[\s\S]*?\})\s*<\/(?:xml|tools)>/g`,
tried at one position: returns the captured JSON payload (braces
included) and the rest after the match. -/
def matchXMLAt (l : List Char) : Option (List Char × List Char) :=
  match (match stripLit "<xml>".data l with
         | some r => some r
         | none => stripLit "<tools>".data l) with
  | none => none
  | some r1 =>
    match skipJsWs r1 with
    | c :: r2 =>
      if c = Char.ofNat 123 then
        (lazyClose r2).map
          (fun p => (Char.ofNat 123 :: p.1 ++ [Char.ofNat 125], p.2))
      else none
    | [] => none

/-- Characters allowed by the class `[^{}]`. -/
def nonBrace (c : Char) : Bool := !(c = Char.ofNat 123 || c = Char.ofNat 125)

/-- Characters allowed by the class `[^)]`. -/
def nonParen (c : Char) : Bool := !(c = ')')

/-- Characters allowed by the class ``[^`]``. -/
def nonTick (c : Char) : Bool := !(c = Char.ofNat 96)

/-- `jsonPattern`,
`/\{[^{}]*"tool"\s*:\s*"([^"]+)"[^{}]*"args"\s*:\s*\{[^{}]*\}[^{}]*\}/g`,
tried at one position: returns the whole matched text (which the source
then feeds to `JSON.parse`) and the rest. -/
def matchBareAt (l : List Char) : Option (List Char × List Char) :=
  match l with
  | [] => none
  | c :: cs =>
    if c = Char.ofNat 123 then
      match
        firstSome (greedySplits nonBrace cs) (fun s1 =>
          match stripLit "\"tool\"".data s1 with
          | none => none
          | some r1 =>
            match skipJsWs r1 with
            | ':' :: r3 =>
              match skipJsWs r3 with
              | '"' :: r5 =>
                let content := r5.takeWhile (fun d => !(d = '"'))
                if content = [] then none
                else
                  match r5.drop content.length with
                  | '"' :: r6 =>
                    firstSome (greedySplits nonBrace r6) (fun s2 =>
                      match stripLit "\"args\"".data s2 with
                      | none => none
                      | some r7 =>
                        match skipJsWs r7 with
                        | ':' :: r9 =>
                          match skipJsWs r9 with
                          | d :: r11 =>
                            if d = Char.ofNat 123 then
                              match r11.drop (r11.takeWhile nonBrace).length with
                              | d2 :: r12 =>
                                if d2 = Char.ofNat 125 then
                                  match r12.drop (r12.takeWhile nonBrace).length with
                                  | d3 :: r13 =>
                                    if d3 = Char.ofNat 125 then some r13 else none
                                  | [] => none
                                else none
                              | [] => none
                            else none
                          | [] => none
                        | _ => none)
                  | _ => none
              | _ => none
            | _ => none)
      with
      | some rest => some (l.take (l.length - rest.length), rest)
      | none => none
    else none

/-- `\s*\n` with a greedy `\s*`: the whitespace run is consumed up to its
last newline. -/
def wsThenNewline (l : List Char) : Option (List Char) :=
  firstSome (greedySplits isJsWs l) (fun s =>
    match s with
    | c :: r => if c = '\n' then some r else none
    | [] => none)

/-- `codeBlockPattern` of `parseJSONToolCalls`,
``/```(?:json)?\s*\n(\{[^`]*(?:"tool"|"name")[^`]*\})\s*\n```/g``, tried
at one position: returns the captured brace group and the rest. -/
def matchCBAt (l : List Char) : Option (List Char × List Char) :=
  match stripLit "```".data l with
  | none => none
  | some r1 =>
    firstSome ((match stripLit "json".data r1 with
                | some r => [r, r1]
                | none => [r1])) (fun r2 =>
      match wsThenNewline r2 with
      | none => none
      | some r3 =>
        match r3 with
        | c :: r4 =>
          if c = Char.ofNat 123 then
            match
              firstSome (greedySplits nonTick r4) (fun s1 =>
                match (match stripLit "\"tool\"".data s1 with
                       | some r => some r
                       | none => stripLit "\"name\"".data s1) with
                | none => none
                | some r5 =>
                  firstSome (greedySplits nonTick r5) (fun s2 =>
                    match s2 with
                    | d :: r6 =>
                      if d = Char.ofNat 125 then
                        match wsThenNewline r6 with
                        | none => none
                        | some r7 =>
                          match stripLit "```".data r7 with
                          | some r8 => some (r6, r8)
                          | none => none
                      else none
                    | [] => none))
            with
            | some (r6, r8) =>
              some (r3.take (r3.length - r6.length), r8)
            | none => none
          else none
        | [] => none)

/-- The per-tool pattern of `extractFunctionCalls`,
`new RegExp(toolName + `\s*\(([^)]*)\)`, 'g')`, tried at one position:
returns the argument text between the parentheses and the rest. -/
def matchFnAt (name : List Char) (l : List Char) : Option (List Char × List Char) :=
  match stripLit name l with
  | none => none
  | some r1 =>
    match skipJsWs r1 with
    | '(' :: r2 =>
      let args := r2.takeWhile nonParen
      match r2.drop args.length with
      | _ :: r3 => some (args, r3)
      | [] => none
    | _ => none

/-- The code-block variant of `extractFunctionCalls`,
``'```[^`]*' + toolName + '\s*\(([^)]*)\)[^`]*```'``, tried at one
position. -/
def matchFnCBAt (name : List Char) (l : List Char) : Option (List Char × List Char) :=
  match stripLit "```".data l with
  | none => none
  | some r1 =>
    firstSome (greedySplits nonTick r1) (fun s1 =>
      match stripLit name s1 with
      | none => none
      | some r2 =>
        match skipJsWs r2 with
        | '(' :: r3 =>
          let args := r3.takeWhile nonParen
          match r3.drop args.length with
          | _ :: r4 =>
            firstSome (greedySplits nonTick r4) (fun s2 =>
              (stripLit "```".data s2).map (fun r5 => (args, r5)))
          | [] => none
        | _ => none)

/-- Characters matched by the JS `.` (anything but a line terminator). -/
def isDotChar (c : Char) : Bool :=
  !(c = '\n' || c = '\r' || c.val = 0x2028 || c.val = 0x2029)

/-- The value group ``((?:\\.|(?!\2).)*)`` of `keyValuePattern` followed
by the closing quote `\2`, with the backtracking of the greedy star:
returns the raw value text (escapes kept) and the rest after the closing
quote. -/
def kvValueSearch (q : Char) : List Char → Option (List Char × List Char)
  | [] => none
  | c :: cs =>
    if c = q then some ([], cs)
    else
      match
        (if c = '\\' then
          match cs with
          | e :: cs' =>
            if isDotChar e then
              (kvValueSearch q cs').map (fun p => (c :: e :: p.1, p.2))
            else none
          | [] => none
        else none)
      with
      | some res => some res
      | none =>
        if isDotChar c then (kvValueSearch q cs).map (fun p => (c :: p.1, p.2))
        else none

/-- `keyValuePattern`, ``/(\w+)\s*=\s*(['"`])((?:\\.|(?!\2).)*)\2/g``,
tried at one position: returns the key and raw value and the rest. -/
def matchKVAt (l : List Char) : Option ((List Char × List Char) × List Char) :=
  let run := l.takeWhile isWordChar
  if run = [] then none
  else
    match skipJsWs (l.drop run.length) with
    | '=' :: r1 =>
      match skipJsWs r1 with
      | q :: r2 =>
        if q = '\'' || q = '"' || q = Char.ofNat 96 then
          (kvValueSearch q r2).map (fun p => ((run, p.1), p.2))
        else none
      | [] => none
    | _ => none

/-! ## The extractor API of `OllamaToolCallParser` -/

/-- A recovered tool call.  The source pushes whatever `JSON.parse`
produced, so both fields are JavaScript values. -/
structure FunctionCall where
  name : JValue
  args : JValue

/-- Property read `parsed.k` (non-objects have none of the properties the
extractor reads). -/
def jsProp (v : JValue) (k : String) : Option JValue :=
  match v with
  | .obj fs => jsGet fs k
  | _ => none

/-- `normalizeParamName` (the `toolName` argument is accepted and ignored,
as in the source). -/
def normalizeParamName (param : String) (_toolName : JValue) : String :=
  if param = "path" ∨ param = "filepath" ∨ param = "file" then "file_path"
  else if param = "cmd" ∨ param = "command" then "command"
  else if param = "dir" ∨ param = "directory" ∨ param = "folder" then "dir_path"
  else param

/-- `normalizeArguments`: rebuild the arguments object with each key
passed through `normalizeParamName` (iteration in `Object.entries`
order, assignment semantics for collisions). -/
def normalizeArguments (args : JValue) (toolName : JValue) : List (String × JValue) :=
  (jsEntries args).foldl
    (fun acc kv => objAssign (normalizeParamName kv.1 toolName) kv.2 acc) []

/-- One iteration body of the `xmlPattern` loop in `parseXMLWrappedJSON`:
parse the payload, accept `{name, arguments}` or `{tool, args}` (both
normalized), otherwise — or on a parse failure, which the source merely
logs — produce nothing. -/
def xmlEmit (payload : List Char) : Option FunctionCall :=
  match jsonParse payload with
  | none => none
  | some parsed =>
    if jsTruthy (jsProp parsed "name") && jsTruthy (jsProp parsed "arguments") then
      some { name := (jsProp parsed "name").getD .null,
             args := .obj (normalizeArguments ((jsProp parsed "arguments").getD .null)
                            ((jsProp parsed "name").getD .null)) }
    else if jsTruthy (jsProp parsed "tool") && jsTruthy (jsProp parsed "args") then
      some { name := (jsProp parsed "tool").getD .null,
             args := .obj (normalizeArguments ((jsProp parsed "args").getD .null)
                            ((jsProp parsed "tool").getD .null)) }
    else none

/-- `parseXMLWrappedJSON`. -/
def parseXMLWrappedJSON (text : List Char) : List FunctionCall :=
  (scanAll matchXMLAt text).filterMap xmlEmit

/-- One iteration body of the `jsonPattern` loop in `parseJSONToolCalls`:
note that this path pushes `parsed.args` unchanged — no
`normalizeArguments`. -/
def bareEmit (matched : List Char) : Option FunctionCall :=
  match jsonParse matched with
  | none => none
  | some parsed =>
    if jsTruthy (jsProp parsed "tool") && jsTruthy (jsProp parsed "args") then
      some { name := (jsProp parsed "tool").getD .null,
             args := (jsProp parsed "args").getD .null }
    else none

/-- The bare-JSON half of `parseJSONToolCalls`. -/
def parseBareJSON (text : List Char) : List FunctionCall :=
  (scanAll matchBareAt text).filterMap bareEmit

/-- One iteration body of the `codeBlockPattern` loop in
`parseJSONToolCalls` (both shapes accepted, both normalized). -/
def cbEmit (captured : List Char) : Option FunctionCall :=
  match jsonParse captured with
  | none => none
  | some parsed =>
    if jsTruthy (jsProp parsed "name") && jsTruthy (jsProp parsed "arguments") then
      some { name := (jsProp parsed "name").getD .null,
             args := .obj (normalizeArguments ((jsProp parsed "arguments").getD .null)
                            ((jsProp parsed "name").getD .null)) }
    else if jsTruthy (jsProp parsed "tool") && jsTruthy (jsProp parsed "args") then
      some { name := (jsProp parsed "tool").getD .null,
             args := .obj (normalizeArguments ((jsProp parsed "args").getD .null)
                            ((jsProp parsed "tool").getD .null)) }
    else none

/-- The fenced-code-block half of `parseJSONToolCalls`. -/
def parseCodeBlockJSON (text : List Char) : List FunctionCall :=
  (scanAll matchCBAt text).filterMap cbEmit

/-- `parseJSONToolCalls`: all bare-pattern matches, then all code-block
matches, in the source's push order. -/
def parseJSONToolCalls (text : List Char) : List FunctionCall :=
  parseBareJSON text ++ parseCodeBlockJSON text

/-- The allow-list of `parseFunctionCallFormat`, in source order. -/
def toolNames : List String :=
  ["write_file", "read_file", "list_directory", "run_shell_command",
   "replace_in_file", "edit_file", "search_files", "web_search"]

/-- `getPositionalParamName`: the static per-tool parameter-order table
with its generic fallback. -/
def getPositionalParamName (toolName : String) (position : Nat) : String :=
  let params : List String :=
    if toolName = "write_file" then ["file_path", "content"]
    else if toolName = "read_file" then ["file_path", "offset", "limit"]
    else if toolName = "list_directory" then ["dir_path"]
    else if toolName = "run_shell_command" then ["command"]
    else if toolName = "edit_file" then ["file_path", "old_string", "new_string"]
    else if toolName = "replace_in_file" then ["file_path", "old_string", "new_string"]
    else if toolName = "search_files" then ["query"]
    else if toolName = "web_search" then ["query"]
    else []
  match params.get? position with
  | some p => p
  | none =>
    if position = 0 then "file_path"
    else if position = 1 then "content"
    else "arg" ++ toString position

/-- The character-loop of `splitArguments` (state: remaining input,
`current`, `inQuote`, `quoteChar`, `escaped`, parts so far). -/
def splitArgsGo : List Char → List Char → Bool → Option Char → Bool →
    List (List Char) → List (List Char)
  | [], current, _, _, _, parts =>
    if jsTrim current ≠ [] then parts ++ [jsTrim current] else parts
  | c :: rest, current, inQuote, quoteChar, escaped, parts =>
    if escaped then splitArgsGo rest (current ++ [c]) inQuote quoteChar false parts
    else if c = '\\' then splitArgsGo rest (current ++ [c]) inQuote quoteChar true parts
    else if (c = '"' ∨ c = '\'' ∨ c = Char.ofNat 96) ∧ ¬inQuote then
      splitArgsGo rest (current ++ [c]) true (some c) false parts
    else if some c = quoteChar ∧ inQuote then
      splitArgsGo rest (current ++ [c]) false none false parts
    else if c = ',' ∧ ¬inQuote then
      splitArgsGo rest [] inQuote quoteChar false
        (if jsTrim current ≠ [] then parts ++ [jsTrim current] else parts)
    else splitArgsGo rest (current ++ [c]) inQuote quoteChar false parts

/-- `splitArguments`: split on commas outside quotes, trimming parts and
dropping empty ones. -/
def splitArguments (argsString : List Char) : List (List Char) :=
  splitArgsGo argsString [] false none false []

/-- `unquoteString`: trim, then remove one layer of matching quotes. -/
def unquoteString (str : List Char) : List Char :=
  let t := jsTrim str
  match t with
  | [] => []
  | c :: _ =>
    if (c = '"' ∧ t.getLast? = some '"') ∨
       (c = '\'' ∧ t.getLast? = some '\'') ∨
       (c = Char.ofNat 96 ∧ t.getLast? = some (Char.ofNat 96)) then
      (t.drop 1).dropLast
    else t

/-- `parseArguments`: key=value pairs first; otherwise positional
arguments mapped through `getPositionalParamName`; `none` models the
`return null` paths (the surrounding `try` has nothing left to catch). -/
def parseArguments (argsString : List Char) (toolName : String) :
    Option (List (String × JValue)) :=
  let kvs := scanAll matchKVAt argsString
  if kvs ≠ [] then
    some (kvs.foldl
      (fun acc kv =>
        objAssign (normalizeParamName (String.mk kv.1) (.str toolName))
          (.str (String.mk kv.2)) acc) [])
  else
    let cleaned := jsTrim argsString
    if containsSub [','] cleaned then
      let parts := splitArguments cleaned
      if parts.length = 2 then
        some (objAssign (getPositionalParamName toolName 1)
                (.str (String.mk (unquoteString (parts.get? 1 |>.getD []))))
              (objAssign (getPositionalParamName toolName 0)
                (.str (String.mk (unquoteString (parts.get? 0 |>.getD [])))) []))
      else if parts.length = 1 then
        some (objAssign (getPositionalParamName toolName 0)
                (.str (String.mk (unquoteString (parts.get? 0 |>.getD [])))) [])
      else none
    else if cleaned.length > 0 then
      some (objAssign (getPositionalParamName toolName 0)
              (.str (String.mk (unquoteString cleaned))) [])
    else none

/-- `extractFunctionCalls` for one tool name: the plain pattern's
matches, then the code-block pattern's matches. -/
def extractFunctionCalls (text : List Char) (toolName : String) : List FunctionCall :=
  ((scanAll (matchFnAt toolName.data) text).filterMap (fun args =>
    (parseArguments args toolName).map
      (fun a => { name := .str toolName, args := .obj a })))
  ++ ((scanAll (matchFnCBAt toolName.data) text).filterMap (fun args =>
    (parseArguments args toolName).map
      (fun a => { name := .str toolName, args := .obj a })))

/-- `parseFunctionCallFormat`: try every allow-listed tool name in
order. -/
def parseFunctionCallFormat (text : List Char) : List FunctionCall :=
  toolNames.flatMap (fun n => extractFunctionCalls text n)

/-- `parseToolCalls`: the strategy cascade — delimited JSON first, then
bare/fenced JSON, then positional call syntax; the first strategy with a
nonempty result wins. -/
def parseToolCallsL (text : List Char) : List FunctionCall :=
  let xmlCalls := parseXMLWrappedJSON text
  if xmlCalls.length = 0 then
    let jsonCalls := parseJSONToolCalls text
    if jsonCalls.length = 0 then parseFunctionCallFormat text
    else jsonCalls
  else xmlCalls

/-- `parseToolCalls` on a `String`. -/
def parseToolCalls (s : String) : List FunctionCall :=
  parseToolCallsL s.data

/-- The final regex test of `hasToolCalls`,
`/(write_file|read_file|list_directory|run_shell_command)\s*\(/`. -/
def matchToolPatAt (name : List Char) (s : List Char) : Bool :=
  match stripLit name s with
  | some r =>
    match skipJsWs r with
    | '(' :: _ => true
    | _ => false
  | none => false

/-- Does the tool-name regex of `hasToolCalls` match anywhere? -/
def toolPatternTest (l : List Char) : Bool :=
  anyPos (fun s =>
    matchToolPatAt "write_file".data s || matchToolPatAt "read_file".data s ||
    matchToolPatAt "list_directory".data s ||
    matchToolPatAt "run_shell_command".data s) l

/-- `hasToolCalls`: the cheap marker pre-check. -/
def hasToolCallsL (text : List Char) : Bool :=
  ((containsSub "<xml>".data text && containsSub "</xml>".data text) ||
   (containsSub "<tools>".data text && containsSub "</tools>".data text)) ||
  (containsSub "\"tool\"".data text ||
   (containsSub "\"name\"".data text && containsSub "\"arguments\"".data text)) ||
  (containsSub "write_file(".data text || containsSub "read_file(".data text) ||
  toolPatternTest text

/-- `hasToolCalls` on a `String`. -/
def hasToolCalls (s : String) : Bool :=
  hasToolCallsL s.data

/-! ## `ollamaContentGenerator.ts`: response conversion and the
newline-delimited streaming loop -/

/-- A native tool call as delivered by the backend: `function.arguments`
is either a JSON string (to be parsed) or an already-structured value. -/
inductive NativeArgs where
  | ofString (s : String)
  | ofValue (v : JValue)

/-- `message.tool_calls[i].function`. -/
structure NativeToolCall where
  name : String
  arguments : NativeArgs

/-- The per-call conversion shared by `convertFromOllamaFormat` and the
stream generator: string arguments are `JSON.parse`d, and a string that
fails to parse is logged and replaced by `{}` — the call itself is kept. -/
def convTC (tc : NativeToolCall) : FunctionCall :=
  { name := .str tc.name,
    args :=
      match tc.arguments with
      | .ofString s =>
        match jsonParse s.data with
        | some v => v
        | none => .obj []
      | .ofValue v => v }

/-- The message of a non-streaming backend response (`tool_calls`
absent is modelled as `[]`). -/
structure OllamaMsg where
  content : String
  tool_calls : List NativeToolCall

/-- A non-streaming backend response, with the fields
`convertFromOllamaFormat` reads. -/
structure OllamaResp where
  message : OllamaMsg
  done_reason : Option String
  prompt_eval_count : Option Nat
  eval_count : Option Nat

structure UsageMetadata where
  promptTokenCount : Nat
  candidatesTokenCount : Nat
  totalTokenCount : Nat
deriving DecidableEq

/-- The converted response (the candidate/parts envelope is flattened to
the fields the engine consumes). -/
structure GenResult where
  text : String
  functionCalls : List FunctionCall
  finishReason : Option String
  usageMetadata : Option UsageMetadata

/-- `convertFromOllamaFormat`: a non-empty native `tool_calls` list wins;
otherwise the text extractor runs on the message content. -/
def convertFromOllamaFormat (resp : OllamaResp) : GenResult :=
  let content := resp.message.content
  let functionCalls :=
    if resp.message.tool_calls.length > 0 then resp.message.tool_calls.map convTC
    else parseToolCalls content
  { text := content
    functionCalls := functionCalls
    finishReason := resp.done_reason
    usageMetadata :=
      match resp.eval_count with
      | some n =>
        if n ≠ 0 then
          some { promptTokenCount := resp.prompt_eval_count.getD 0
                 candidatesTokenCount := n
                 totalTokenCount := resp.prompt_eval_count.getD 0 + n }
        else none
      | none => none }

/-- String coercion used by `accumulatedText += parsed.message.content`
(an absent property concatenates as `"undefined"`; numeric fragments are
rendered as their source lexeme). -/
def jsToStr : JValue → String
  | .str s => s
  | .num lex => lex
  | .bool b => if b then "true" else "false"
  | .null => "null"
  | .arr _ => ""
  | .obj _ => "[object Object]"

/-- Coercion of a read property for string concatenation. -/
def jsConcatStr : Option JValue → String
  | none => "undefined"
  | some v => jsToStr v

/-- Decode one element of a streamed `tool_calls` array.  `none` models
the `TypeError` thrown (and caught by the per-line handler) when the
element does not have the `{function: {name, arguments}}` shape. -/
def decodeTC (v : JValue) : Option NativeToolCall :=
  match jsProp v "function" with
  | some f =>
    match jsProp f "name", jsProp f "arguments" with
    | some (.str n), some (.str a) => some { name := n, arguments := .ofString a }
    | some (.str n), some w => some { name := n, arguments := .ofValue w }
    | _, _ => none
  | none => none

/-- The error message built for a stream line carrying an `error` field
(`modelInfo` is nonempty whenever the request named a model, which it
always does). -/
def errorLineMsg (model errorMsg : String) : String :=
  let modelInfo := if model ≠ "" then " (model: " ++ model ++ ")" else ""
  if containsSub "unexpected EOF".data errorMsg.data ||
     containsSub "model not found".data errorMsg.data then
    "Ollama model error" ++ modelInfo ++ ": " ++ errorMsg
  else
    "Ollama error" ++ modelInfo ++ ": " ++ errorMsg

/-- The `done`-chunk decision of the stream generator: a non-empty
native `tool_calls` array is converted; otherwise the extractor runs on
the accumulated text. -/
def doneFunctionCalls (tcs : List NativeToolCall) (accText : String) : List FunctionCall :=
  if tcs.length > 0 then tcs.map convTC
  else parseToolCalls accText

/-- One streaming turn of `generateContentStream`'s generator over the
already-split lines: skip blank lines, skip lines `JSON.parse` rejects
(logged, not fatal), handle `error` lines (rethrown only when the built
message starts with `Ollama error:`), accumulate content, and yield one
response per well-formed line, ending at the first `done` line.  Returns
the yielded responses and the uncaught error, if any. -/
def runStream (model : String) : List String → String → List GenResult × Option String
  | [], _ => ([], none)
  | line :: rest, accText =>
    let trimmed := jsTrim line.data
    if trimmed.length = 0 then runStream model rest accText
    else
      match jsonParse trimmed with
      | none => runStream model rest accText
      | some parsed =>
        match parsed with
        | .obj fs =>
          match jsGet fs "error" with
          | some ev =>
            match ev with
            | .str emsg =>
              let thrown := errorLineMsg model emsg
              if String.startsWith thrown "Ollama error:" then ([], some thrown)
              else runStream model rest accText
            | _ => runStream model rest accText
          | none =>
            let msgv := jsGet fs "message"
            if !jsTruthy msgv then runStream model rest accText
            else
              let m := msgv.getD .null
              let contentStr := jsConcatStr (jsProp m "content")
              let accText' := accText ++ contentStr
              let doneB := jsTruthy (jsGet fs "done")
              if doneB then
                match jsProp m "tool_calls" with
                | some (.arr tcs) =>
                  if tcs.length > 0 then
                    match tcs.mapM decodeTC with
                    | some ntcs =>
                      ([{ text := contentStr
                          functionCalls := ntcs.map convTC
                          finishReason :=
                            match jsGet fs "done_reason" with
                            | some (.str r) => some r
                            | _ => none
                          usageMetadata := none }], none)
                    | none => runStream model rest accText'
                  else
                    ([{ text := contentStr
                        functionCalls := parseToolCalls accText'
                        finishReason :=
                          match jsGet fs "done_reason" with
                          | some (.str r) => some r
                          | _ => none
                        usageMetadata := none }], none)
                | _ =>
                  ([{ text := contentStr
                      functionCalls := parseToolCalls accText'
                      finishReason :=
                        match jsGet fs "done_reason" with
                        | some (.str r) => some r
                        | _ => none
                      usageMetadata := none }], none)
              else
                let (tailResults, err) := runStream model rest accText'
                ({ text := contentStr
                   functionCalls := []
                   finishReason := none
                   usageMetadata := none } :: tailResults, err)
        | _ => runStream model rest accText

/-! ## The turn processor (session hook): `processOllamaStreamEvents`,
`streamingState`, `submitQuery`, `handleCompletedTools` -/

/-- A model-requested tool call, as carried by a `ToolCallRequest`
event. -/
structure ToolCallRequestInfo where
  callId : String
  name : String
  prompt_id : String
deriving DecidableEq

/-- The canonical stream events consumed by
`processOllamaStreamEvents`. -/
inductive OllamaEvent where
  | thought (v : String)
  | content (v : String)
  | toolCallRequest (v : ToolCallRequestInfo)
  | userCancelled
  | errorEvt (v : String)
  | chatCompressed (v : String)
  | toolCallConfirmation
  | toolCallResponse
  | maxSessionTurns
  | contextWindowWillOverflow (estimated remaining : Nat)
  | finished (reason : String)
  | citation (v : String)
  | modelInfo (v : String)
  | loopDetected
  | retry
  | invalidStream
deriving DecidableEq

/-- Observable actions of the event-consumption loop, in execution
order. -/
inductive TurnAction where
  | setThought (v : String)
  | handleContent (v : String)
  | handleUserCancelled
  | handleError (v : String)
  | handleChatCompression (v : String)
  | handleMaxSessionTurns
  | handleContextOverflow (estimated remaining : Nat)
  | handleFinished (reason : String)
  | handleCitation (v : String)
  | handleModelInfo (v : String)
  | setLoopDetectedRef
  | scheduleToolCalls (batch : List ToolCallRequestInfo)
deriving DecidableEq

/-- The actions performed while handling one event inside the loop.  A
`ToolCallRequest` performs none: it is only accumulated. -/
def eventActions : OllamaEvent → List TurnAction
  | .thought v => [.setThought v]
  | .content v => [.handleContent v]
  | .toolCallRequest _ => []
  | .userCancelled => [.handleUserCancelled]
  | .errorEvt v => [.handleError v]
  | .chatCompressed v => [.handleChatCompression v]
  | .toolCallConfirmation => []
  | .toolCallResponse => []
  | .maxSessionTurns => [.handleMaxSessionTurns]
  | .contextWindowWillOverflow e r => [.handleContextOverflow e r]
  | .finished reason => [.handleFinished reason]
  | .citation v => [.handleCitation v]
  | .modelInfo v => [.handleModelInfo v]
  | .loopDetected => [.setLoopDetectedRef]
  | .retry => []
  | .invalidStream => []

/-- `processOllamaStreamEvents`: the single-consumer loop with its
`toolCallRequests` accumulator; after the stream is exhausted, a
non-empty accumulated batch is handed to the scheduler. -/
def processOllamaStreamEvents : List OllamaEvent → List ToolCallRequestInfo → List TurnAction
  | [], acc => if acc.length > 0 then [.scheduleToolCalls acc] else []
  | e :: rest, acc =>
    match e with
    | .toolCallRequest r => processOllamaStreamEvents rest (acc ++ [r])
    | _ => eventActions e ++ processOllamaStreamEvents rest acc

/-- The tool-call requests carried by a stream, in order of
appearance. -/
def collectToolCallRequests (evs : List OllamaEvent) : List ToolCallRequestInfo :=
  evs.filterMap (fun e =>
    match e with
    | .toolCallRequest r => some r
    | _ => none)

/-- Is an action an invocation of the scheduler? -/
def isScheduleAction : TurnAction → Bool
  | .scheduleToolCalls _ => true
  | _ => false

/-- Terminal and non-terminal states of a tracked tool call. -/
inductive TCStatus where
  | validating
  | scheduled
  | executing
  | awaitingApproval
  | success
  | error
  | cancelled
deriving DecidableEq

/-- A response part recorded for a completed call (opaque to the
engine). -/
abbrev RespPart := String

/-- A scheduler-owned tool call, with the fields the session hook
reads. -/
structure TrackedToolCall where
  callId : String
  name : String
  prompt_id : String
  isClientInitiated : Bool
  status : TCStatus
  responseParts : Option (List RespPart)
  responseSubmittedToOllama : Bool
deriving DecidableEq

/-- The session's `streamingState` memo: `WaitingForConfirmation` if any
call awaits approval; `Responding` while responding or while any call is
active or terminal-but-unsubmitted; otherwise `Idle`. -/
inductive StreamingState where
  | idle
  | responding
  | waitingForConfirmation
deriving DecidableEq

def streamingState (isResponding : Bool) (toolCalls : List TrackedToolCall) : StreamingState :=
  if toolCalls.any (fun tc => tc.status == .awaitingApproval) then .waitingForConfirmation
  else if isResponding ||
    toolCalls.any (fun tc =>
      tc.status == .executing || tc.status == .scheduled || tc.status == .validating ||
      ((tc.status == .success || tc.status == .error || tc.status == .cancelled) &&
        !tc.responseSubmittedToOllama)) then .responding
  else .idle

/-- The externally visible effects of `submitQuery`, in program order,
up to the backend send (`sendMessageStream`).  There is no queueing
effect anywhere in the source: a rejected query is dropped, not
deferred. -/
inductive SubmitEffect where
  | setActiveQueryId
  | resetQuotaFlags
  | newAbortController
  | prepareQuery
  | logUserPrompt
  | startNewPrompt
  | clearThought
  | setResponding
  | sendMessageStream
deriving DecidableEq

/-- `submitQuery`, to the first backend send: the guard returns early —
with only the query-id bookkeeping done — when the state is `Responding`
or `WaitingForConfirmation` and the call is not a continuation.
`shouldProceed` and `queryIsString` abstract the outcome of
`prepareQueryForOllama` and the type of the prepared query. -/
def submitQuery (state : StreamingState) (isContinuation : Bool)
    (shouldProceed : Bool) (queryIsString : Bool) : List SubmitEffect :=
  [.setActiveQueryId] ++
  (if (state = .responding ∨ state = .waitingForConfirmation) ∧ ¬isContinuation then []
   else
     (if ¬isContinuation then [.resetQuotaFlags] else []) ++
     [.newAbortController, .prepareQuery] ++
     (if ¬shouldProceed then []
      else
        (if ¬isContinuation then
          (if queryIsString then [.logUserPrompt] else []) ++
          [.startNewPrompt, .clearThought]
        else []) ++
        [.setResponding, .sendMessageStream]))

/-- The effects of `handleCompletedTools`. -/
structure HandleCompletedResult where
  clientMarkedSubmitted : List String
  memoryRefreshed : Bool
  addedCancellationNotice : Bool
  setIsRespondingFalse : Bool
  historyAdded : List (List RespPart)
  markedSubmitted : List String
  continuationSent : Option (List RespPart × String)
deriving DecidableEq

/-- `handleCompletedTools`: filter to terminal calls with recorded
response parts; finalize client-initiated calls; if every model-initiated
call was cancelled, record the responses locally and stop — otherwise
merge the responses and submit a continuation (unless a quota-error model
switch intervened). -/
def handleCompletedTools (completed : List TrackedToolCall)
    (turnCancelled hasOllamaClient modelSwitchedFromQuotaError : Bool)
    (processedMemoryIds : List String) : HandleCompletedResult :=
  let ready := completed.filter (fun tc =>
    (tc.status == .success || tc.status == .error || tc.status == .cancelled) &&
    tc.responseParts.isSome)
  let clientTools := ready.filter (fun t => t.isClientInitiated)
  let clientMarked := if clientTools.length > 0 then clientTools.map (fun t => t.callId) else []
  let newMemorySaves := ready.filter (fun t =>
    t.name == "save_memory" && t.status == .success &&
    !(processedMemoryIds.contains t.callId))
  let memoryRefreshed := newMemorySaves.length > 0
  let ollamaTools := ready.filter (fun t => !t.isClientInitiated)
  if ollamaTools.length = 0 then
    { clientMarkedSubmitted := clientMarked
      memoryRefreshed := memoryRefreshed
      addedCancellationNotice := false
      setIsRespondingFalse := false
      historyAdded := []
      markedSubmitted := []
      continuationSent := none }
  else if ollamaTools.all (fun tc => tc.status == .cancelled) then
    { clientMarkedSubmitted := clientMarked
      memoryRefreshed := memoryRefreshed
      addedCancellationNotice := !turnCancelled
      setIsRespondingFalse := true
      historyAdded :=
        if hasOllamaClient then
          [ollamaTools.flatMap (fun t => t.responseParts.getD [])]
        else []
      markedSubmitted := ollamaTools.map (fun t => t.callId)
      continuationSent := none }
  else
    { clientMarkedSubmitted := clientMarked
      memoryRefreshed := memoryRefreshed
      addedCancellationNotice := false
      setIsRespondingFalse := false
      historyAdded := []
      markedSubmitted := ollamaTools.map (fun t => t.callId)
      continuationSent :=
        if modelSwitchedFromQuotaError then none
        else
          some (ollamaTools.flatMap (fun t => t.responseParts.getD []),
                ((ollamaTools.map (fun t => t.prompt_id)).head?).getD "") }

/-! ## Specification-side vocabulary for the claims -/

/-- The four tool names the `hasToolCalls` pre-check looks for. -/
def checkedToolNames : List String :=
  ["write_file", "read_file", "list_directory", "run_shell_command"]

/-- The four allow-listed tool names the pre-check does not look for. -/
def uncheckedToolNames : List String :=
  ["replace_in_file", "edit_file", "search_files", "web_search"]

/-- The non-canonical synonym keys of `normalizeParamName` (each is
rewritten to a canonical key; `command` itself is canonical). -/
def synonymKeys : List String :=
  ["path", "filepath", "file", "cmd", "dir", "directory", "folder"]

/-- No argument key of the call is an unnormalized synonym. -/
def argKeysNormalized (c : FunctionCall) : Bool :=
  match c.args with
  | .obj fs => fs.all (fun kv => !(synonymKeys.contains kv.1))
  | _ => true

/-- Does the pattern occur at the start of a line or immediately after
whitespace (tracking the preceding character)? -/
def occursAtBoundaryGo (pat : List Char) (prev : Option Char) : List Char → Bool
  | [] => false
  | c :: cs =>
    ((match prev with | none => true | some p => isJsWs p) &&
      (stripLit pat (c :: cs)).isSome)
    || occursAtBoundaryGo pat (some c) cs

/-- The pattern occurs at text start, line start, or after whitespace. -/
def occursAtBoundary (pat l : List Char) : Bool :=
  occursAtBoundaryGo pat none l

/-! ## Well-formed delimited-JSON tool-call texts (the input class of the
round-trip claim): prose interleaved with `<xml>`/`<tools>` blocks whose
payload is a JSON object `{"name": ..., "arguments": {...}}` or
`{"tool": ..., "args": {...}}` with string-valued arguments. -/

/-- One encoded tool call: tag choice, shape choice (`{tool, args}` vs
`{name, arguments}`), name, and string-valued arguments. -/
structure EncodedToolCall where
  name : String
  args : List (String × String)
  useToolsTag : Bool
  useToolShape : Bool

/-- A delimited-JSON tool-call text: leading prose, then blocks each
followed by prose. -/
structure EncodedText where
  lead : List Char
  items : List (EncodedToolCall × List Char)

/-- Characters usable in encoded names, keys and values: no quote, no
backslash, no brace, no control character.  (Keeps the JSON rendering
escape-free and keeps the payload's only closing braces at its end,
which the lazy `xmlPattern` body requires — see the counterexample to
the unrestricted claim.) -/
def safeStrChar (c : Char) : Bool :=
  !(c = '"' || c = '\\' || c = Char.ofNat 123 || c = Char.ofNat 125) && !(c.val < 0x20)

def safeStr (s : String) : Bool := s.data.all safeStrChar

/-- Characters usable in surrounding prose: nothing that can open a
block, a JSON object, or a positional call (`<`, `{`, `(`). -/
def safeProseChar (c : Char) : Bool :=
  !(c = '<' || c = Char.ofNat 123 || c = '(')

/-- `"s"` as JSON text (safe strings need no escapes). -/
def renderQuoted (s : String) : List Char :=
  '"' :: s.data ++ ['"']

/-- `"k":"v"` members, comma-separated. -/
def renderMembers : List (String × String) → List Char
  | [] => []
  | [kv] => renderQuoted kv.1 ++ ':' :: renderQuoted kv.2
  | kv :: rest => renderQuoted kv.1 ++ ':' :: renderQuoted kv.2 ++ ',' :: renderMembers rest

/-- The arguments object `{...}`. -/
def renderArgsObj (args : List (String × String)) : List Char :=
  Char.ofNat 123 :: renderMembers args ++ [Char.ofNat 125]

/-- The payload's key pair, by shape. -/
def blockKeys (b : EncodedToolCall) : String × String :=
  if b.useToolShape then ("tool", "args") else ("name", "arguments")

/-- The JSON payload of a block. -/
def renderJson (b : EncodedToolCall) : List Char :=
  Char.ofNat 123 ::
    (renderQuoted (blockKeys b).1 ++ ':' :: renderQuoted b.name ++
     ',' :: renderQuoted (blockKeys b).2 ++ ':' :: renderArgsObj b.args)
  ++ [Char.ofNat 125]

/-- A whole block with its delimiters. -/
def renderBlock (b : EncodedToolCall) : List Char :=
  (if b.useToolsTag then "<tools>".data else "<xml>".data) ++
  renderJson b ++
  (if b.useToolsTag then "</tools>".data else "</xml>".data)

/-- The rendered text of an encoded tool-call text. -/
def renderText (t : EncodedText) : List Char :=
  t.lead ++ (t.items.flatMap (fun it => renderBlock it.1 ++ it.2))

/-- Well-formedness of one encoded call: nonempty safe name, safe keys
and values, and pairwise-distinct normalized keys (so that the encoded
pairs survive normalization as given). -/
def wfCall (b : EncodedToolCall) : Prop :=
  b.name ≠ "" ∧ safeStr b.name = true ∧
  (∀ kv ∈ b.args, safeStr kv.1 = true ∧ safeStr kv.2 = true) ∧
  (b.args.map (fun kv => normalizeParamName kv.1 (.str b.name))).Nodup

/-- Well-formedness of the whole text. -/
def wfText (t : EncodedText) : Prop :=
  (∀ c ∈ t.lead, safeProseChar c = true) ∧
  ∀ it ∈ t.items, wfCall it.1 ∧ ∀ c ∈ it.2, safeProseChar c = true

/-- The `(name, args)` pair a well-formed block encodes, with its keys
normalized — what the round-trip claim expects extraction to return. -/
def expectedCall (b : EncodedToolCall) : FunctionCall :=
  { name := .str b.name,
    args := .obj (b.args.map
      (fun kv => (normalizeParamName kv.1 (.str b.name), .str kv.2))) }

/-! ## Exception-transparent variants (for the totality claim): every
operation that can throw is an `Except` computation, and each `try` /
`catch` of the source is an explicit `tryCatchE`. -/

/-- Run a possibly-throwing computation under a catch handler. -/
def tryCatchE (x : Except String α) (handler : String → α) : α :=
  match x with
  | .ok a => a
  | .error e => handler e

/-- `JSON.parse` as a throwing computation. -/
def jsonParseE (l : List Char) : Except String JValue :=
  match jsonParse l with
  | some v => .ok v
  | none => .error "SyntaxError: Unexpected token"

/-- The non-throwing tail of the `xmlPattern` loop body (after
`JSON.parse` has succeeded). -/
def xmlShape (parsed : JValue) : Option FunctionCall :=
  if jsTruthy (jsProp parsed "name") && jsTruthy (jsProp parsed "arguments") then
    some { name := (jsProp parsed "name").getD .null,
           args := .obj (normalizeArguments ((jsProp parsed "arguments").getD .null)
                          ((jsProp parsed "name").getD .null)) }
  else if jsTruthy (jsProp parsed "tool") && jsTruthy (jsProp parsed "args") then
    some { name := (jsProp parsed "tool").getD .null,
           args := .obj (normalizeArguments ((jsProp parsed "args").getD .null)
                          ((jsProp parsed "tool").getD .null)) }
  else none

/-- The non-throwing tail of the `jsonPattern` loop body. -/
def bareShape (parsed : JValue) : Option FunctionCall :=
  if jsTruthy (jsProp parsed "tool") && jsTruthy (jsProp parsed "args") then
    some { name := (jsProp parsed "tool").getD .null,
           args := (jsProp parsed "args").getD .null }
  else none

/-- `parseXMLWrappedJSON` with its per-iteration catch explicit. -/
def parseXMLWrappedJSONE (text : List Char) : Except String (List FunctionCall) :=
  .ok ((scanAll matchXMLAt text).filterMap
    (fun p => tryCatchE ((jsonParseE p).map xmlShape) (fun _ => none)))

/-- `parseJSONToolCalls` with its per-iteration catches explicit. -/
def parseJSONToolCallsE (text : List Char) : Except String (List FunctionCall) :=
  .ok (((scanAll matchBareAt text).filterMap
          (fun p => tryCatchE ((jsonParseE p).map bareShape) (fun _ => none)))
    ++ ((scanAll matchCBAt text).filterMap
          (fun p => tryCatchE ((jsonParseE p).map xmlShape) (fun _ => none))))

/-- `parseArguments` sits inside its own `try`; nothing in its body can
throw, so the catch handler is unreachable but present in the source. -/
def parseArgumentsE (argsString : List Char) (toolName : String) :
    Except String (Option (List (String × JValue))) :=
  tryCatchE (.ok (.ok (parseArguments argsString toolName))) (fun _ => .ok none)

/-- `parseFunctionCallFormat` with the (vacuous) catches explicit. -/
def parseFunctionCallFormatE (text : List Char) : Except String (List FunctionCall) :=
  .ok (toolNames.flatMap (fun n =>
    ((scanAll (matchFnAt n.data) text).filterMap (fun args =>
      (tryCatchE (.ok (parseArguments args n)) (fun _ => none)).map
        (fun a => { name := .str n, args := .obj a })))
    ++ ((scanAll (matchFnCBAt n.data) text).filterMap (fun args =>
      (tryCatchE (.ok (parseArguments args n)) (fun _ => none)).map
        (fun a => { name := .str n, args := .obj a })))))

/-- `parseToolCalls` with every throwing site under its catch. -/
def parseToolCallsE (text : List Char) : Except String (List FunctionCall) := do
  let xmlCalls ← parseXMLWrappedJSONE text
  if xmlCalls.length = 0 then
    let jsonCalls ← parseJSONToolCallsE text
    if jsonCalls.length = 0 then parseFunctionCallFormatE text
    else return jsonCalls
  else return xmlCalls

/-- `hasToolCalls` contains no throwing operation at all. -/
def hasToolCallsE (text : List Char) : Except String Bool :=
  .ok (hasToolCallsL text)

/-! ## Concrete instances used by counterexamples and witnesses -/

/-- A completed batch holding one cancelled, model-initiated call. -/
def cancelledBatchDemo : List TrackedToolCall :=
  [{ callId := "call-1", name := "write_file", prompt_id := "p-1",
     isClientInitiated := false, status := .cancelled,
     responseParts := some ["cancelled-response"],
     responseSubmittedToOllama := false }]

/-- The text of the C7 counterexample, minus its first character. -/
def demoC7 : List Char := "write_file('a', 'b')".data

/-- The block of the C1 counterexample: a well-formed payload whose
argument value contains a closing brace followed by a closing
delimiter. -/
def cexBlockC1 : EncodedToolCall :=
  { name := "write_file", args := [("content", "\x7d</xml>")],
    useToolsTag := false, useToolShape := false }

/-- A well-formed delimited-JSON text used as the round-trip witness. -/
def wfTextDemo : EncodedText :=
  { lead := "ok, calling now: ".data,
    items :=
      [({ name := "write_file", args := [("path", "a.txt"), ("content", "hi")],
          useToolsTag := false, useToolShape := false }, " and then ".data),
       ({ name := "list_directory", args := [("dir", ".")],
          useToolsTag := true, useToolShape := true }, " done.".data)] }

/-! ## Scanner infrastructure lemmas -/

theorem scanStep_eq_some {α : Type} {f : List Char → Option (α × List Char)} {l : List Char}
    {a : α} {r : List Char} (h : scanStep f l = some (a, r)) :
    f l = some (a, r) ∧ r.length < l.length := by
  simp only [scanStep] at h
  cases hf : f l with
  | none => rw [hf] at h; cases h
  | some p =>
    obtain ⟨a', r'⟩ := p
    rw [hf] at h
    simp only [Option.some_bind] at h
    by_cases hlt : r'.length < l.length
    · rw [if_pos hlt] at h
      cases h
      exact ⟨rfl, hlt⟩
    · rw [if_neg hlt] at h
      cases h

theorem scanStep_of_f {α : Type} {f : List Char → Option (α × List Char)} {l : List Char}
    {a : α} {r : List Char} (hf : f l = some (a, r)) (hlt : r.length < l.length) :
    scanStep f l = some (a, r) := by
  simp only [scanStep, hf, Option.some_bind]
  rw [if_pos hlt]

theorem scanStep_of_f_none {α : Type} {f : List Char → Option (α × List Char)} {l : List Char}
    (hf : f l = none) : scanStep f l = none := by
  simp only [scanStep, hf, Option.none_bind]

theorem scanGo_fuel {α : Type} (f : List Char → Option (α × List Char)) :
    ∀ f1 f2 l, l.length < f1 → l.length < f2 → scanGo f f1 l = scanGo f f2 l := by
  intro f1
  induction f1 with
  | zero => intro f2 l h1 _; exact absurd h1 (Nat.not_lt_zero _)
  | succ f1 ih =>
    intro f2 l h1 h2
    match f2 with
    | 0 => exact absurd h2 (Nat.not_lt_zero _)
    | f2 + 1 =>
      cases l with
      | nil => simp [scanGo]
      | cons c cs =>
        simp only [scanGo]
        cases hstep : scanStep f (c :: cs) with
        | none =>
          have hcs : cs.length < f1 := by
            simp only [List.length_cons] at h1
            omega
          have hcs2 : cs.length < f2 := by
            simp only [List.length_cons] at h2
            omega
          simp only [Option.elim_none]
          exact ih f2 cs hcs hcs2
        | some ar =>
          obtain ⟨a, r⟩ := ar
          obtain ⟨-, hlt⟩ := scanStep_eq_some hstep
          simp only [List.length_cons] at h1 h2 hlt
          simp only [Option.elim_some]
          rw [ih f2 r (by omega) (by omega)]

theorem scanAll_nil {α : Type} (f : List Char → Option (α × List Char)) :
    scanAll f [] = [] := by
  simp [scanAll, scanGo]

theorem scanAll_cons_some {α : Type} {f : List Char → Option (α × List Char)}
    {c : Char} {cs : List Char} {a : α} {r : List Char}
    (h : scanStep f (c :: cs) = some (a, r)) :
    scanAll f (c :: cs) = a :: scanAll f r := by
  obtain ⟨-, hlt⟩ := scanStep_eq_some h
  simp only [scanAll, List.length_cons, scanGo, h, Option.elim_some]
  simp only [List.length_cons] at hlt
  rw [scanGo_fuel f (cs.length + 1) (r.length + 1) r (by omega) (by omega)]

theorem scanAll_cons_none {α : Type} {f : List Char → Option (α × List Char)}
    {c : Char} {cs : List Char} (h : scanStep f (c :: cs) = none) :
    scanAll f (c :: cs) = scanAll f cs := by
  simp only [scanAll, List.length_cons, scanGo, h, Option.elim_none]

theorem mem_scanGo {α : Type} {f : List Char → Option (α × List Char)}
    (hsuf : ∀ l a r, f l = some (a, r) → r <:+ l) :
    ∀ fuel l (a : α), a ∈ scanGo f fuel l → ∃ l' r, l' <:+ l ∧ f l' = some (a, r) := by
  intro fuel
  induction fuel with
  | zero => intro l a h; simp [scanGo] at h
  | succ fuel ih =>
    intro l a h
    cases l with
    | nil => simp [scanGo] at h
    | cons c cs =>
      simp only [scanGo] at h
      cases hstep : scanStep f (c :: cs) with
      | none =>
        rw [hstep] at h
        simp only [Option.elim_none] at h
        obtain ⟨l', r, hl', hf⟩ := ih cs a h
        exact ⟨l', r, hl'.trans (List.suffix_cons c cs), hf⟩
      | some ar =>
        obtain ⟨b, r⟩ := ar
        rw [hstep] at h
        simp only [Option.elim_some] at h
        obtain ⟨hf, -⟩ := scanStep_eq_some hstep
        rcases List.mem_cons.mp h with rfl | h
        · exact ⟨c :: cs, r, List.suffix_refl _, hf⟩
        · obtain ⟨l', r', hl', hf'⟩ := ih r a h
          exact ⟨l', r', hl'.trans (hsuf _ _ _ hf), hf'⟩

theorem mem_scanAll {α : Type} {f : List Char → Option (α × List Char)}
    (hsuf : ∀ l a r, f l = some (a, r) → r <:+ l) {l : List Char} {a : α}
    (h : a ∈ scanAll f l) : ∃ l' r, l' <:+ l ∧ f l' = some (a, r) :=
  mem_scanGo hsuf _ l a h

theorem anyPos_of_suffix {p : List Char → Bool} :
    ∀ {l s : List Char}, s <:+ l → p s = true → anyPos p l = true := by
  intro l
  induction l with
  | nil =>
    intro s hs hp
    rw [List.suffix_nil.mp hs] at hp
    simpa [anyPos] using hp
  | cons c cs ih =>
    intro s hs hp
    obtain ⟨pre, hpre⟩ := hs
    cases pre with
    | nil =>
      simp only [List.nil_append] at hpre
      subst hpre
      simp [anyPos, hp]
    | cons d ds =>
      simp only [List.cons_append, List.cons.injEq] at hpre
      have : s <:+ cs := ⟨ds, hpre.2⟩
      simp [anyPos, ih this hp]

theorem stripLit_iff {p : List Char} :
    ∀ {l r : List Char}, stripLit p l = some r ↔ l = p ++ r := by
  induction p with
  | nil => intro l r; simp [stripLit]
  | cons x xs ih =>
    intro l r
    cases l with
    | nil => simp [stripLit]
    | cons c cs =>
      by_cases hc : c = x
      · subst hc
        simp [stripLit, ih]
      · simp [stripLit, if_neg hc, hc]

theorem stripLit_self (p r : List Char) : stripLit p (p ++ r) = some r :=
  stripLit_iff.mpr rfl

theorem stripLit_suffix {p l r : List Char} (h : stripLit p l = some r) : r <:+ l :=
  ⟨p, (stripLit_iff.mp h).symm⟩

theorem containsSub_of_strip {pat l s r : List Char} (hs : s <:+ l)
    (h : stripLit pat s = some r) : containsSub pat l = true :=
  anyPos_of_suffix hs (by simp [h])

theorem skipJsWs_suffix : ∀ l : List Char, skipJsWs l <:+ l := by
  intro l
  induction l with
  | nil => simp [skipJsWs]
  | cons c cs ih =>
    by_cases h : isJsWs c = true
    · simp only [skipJsWs, h, if_true]
      exact ih.trans (List.suffix_cons c cs)
    · simp [skipJsWs, h]

theorem skipJsWs_not_ws {c : Char} (l : List Char) (h : isJsWs c = false) :
    skipJsWs (c :: l) = c :: l := by
  simp [skipJsWs, h]

theorem skipJsonWs_not_ws {c : Char} (l : List Char) (h : isJsonWs c = false) :
    skipJsonWs (c :: l) = c :: l := by
  simp [skipJsonWs, h]

theorem firstSome_eq_some {α β : Type} :
    ∀ {xs : List α} {g : α → Option β} {b : β},
      firstSome xs g = some b → ∃ x ∈ xs, g x = some b := by
  intro xs
  induction xs with
  | nil => intro g b h; cases h
  | cons x xs ih =>
    intro g b h
    simp only [firstSome] at h
    cases hg : g x with
    | some b' =>
      rw [hg] at h
      cases h
      exact ⟨x, List.mem_cons_self x xs, hg⟩
    | none =>
      rw [hg] at h
      obtain ⟨y, hy, hgy⟩ := ih h
      exact ⟨y, List.mem_cons_of_mem x hy, hgy⟩

theorem mem_greedySplits {p : Char → Bool} {l s : List Char}
    (h : s ∈ greedySplits p l) : s <:+ l := by
  simp only [greedySplits, List.mem_map, List.mem_reverse, List.mem_range] at h
  obtain ⟨k, -, rfl⟩ := h
  exact List.drop_suffix k l

theorem closeTagAfterWs_suffix {l r : List Char} (h : closeTagAfterWs l = some r) :
    r <:+ l := by
  simp only [closeTagAfterWs] at h
  cases h1 : stripLit "</xml>".data (skipJsWs l) with
  | some r' =>
    rw [h1] at h
    cases h
    exact (stripLit_suffix h1).trans (skipJsWs_suffix l)
  | none =>
    rw [h1] at h
    exact (stripLit_suffix h).trans (skipJsWs_suffix l)

theorem lazyClose_suffix : ∀ {l : List Char} {p r : List Char},
    lazyClose l = some (p, r) → r <:+ l := by
  intro l
  induction l with
  | nil => intro p r h; cases h
  | cons c cs ih =>
    intro p r h
    simp only [lazyClose] at h
    by_cases hc : c = Char.ofNat 125
    · rw [if_pos hc] at h
      cases hcl : closeTagAfterWs cs with
      | some rest =>
        rw [hcl] at h
        cases h
        exact (closeTagAfterWs_suffix hcl).trans (List.suffix_cons c cs)
      | none =>
        rw [hcl] at h
        cases hlz : lazyClose cs with
        | none => rw [hlz] at h; cases h
        | some pr =>
          obtain ⟨p', r'⟩ := pr
          rw [hlz] at h
          simp only [Option.map_some'] at h
          cases h
          exact (ih hlz).trans (List.suffix_cons c cs)
    · rw [if_neg hc] at h
      cases hlz : lazyClose cs with
      | none => rw [hlz] at h; cases h
      | some pr =>
        obtain ⟨p', r'⟩ := pr
        rw [hlz] at h
        simp only [Option.map_some'] at h
        cases h
        exact (ih hlz).trans (List.suffix_cons c cs)

theorem matchXMLAt_shrinks : ∀ {l p r : List Char},
    matchXMLAt l = some (p, r) → r.length < l.length ∧ r <:+ l := by
  intro l p r h
  simp only [matchXMLAt] at h
  have hopen : ∃ r1, (r1 <:+ l ∧ r1.length < l.length) ∧
      (match skipJsWs r1 with
       | c :: r2 =>
         if c = Char.ofNat 123 then
           (lazyClose r2).map
             (fun p => (Char.ofNat 123 :: p.1 ++ [Char.ofNat 125], p.2))
         else none
       | [] => none) = some (p, r) := by
    cases h1 : stripLit "<xml>".data l with
    | some r1 =>
      rw [h1] at h
      simp only at h
      refine ⟨r1, ⟨stripLit_suffix h1, ?_⟩, h⟩
      have := stripLit_iff.mp h1
      subst this
      simp
      omega
    | none =>
      rw [h1] at h
      cases h2 : stripLit "<tools>".data l with
      | some r1 =>
        rw [h2] at h
        simp only at h
        refine ⟨r1, ⟨stripLit_suffix h2, ?_⟩, h⟩
        have := stripLit_iff.mp h2
        subst this
        simp
        omega
      | none => rw [h2] at h; simp only at h; cases h
  obtain ⟨r1, ⟨hsuf1, hlen1⟩, h⟩ := hopen
  cases hsk : skipJsWs r1 with
  | nil => rw [hsk] at h; simp only at h; cases h
  | cons c r2 =>
    rw [hsk] at h
    simp only at h
    by_cases hc : c = Char.ofNat 123
    · rw [if_pos hc] at h
      cases hlz : lazyClose r2 with
      | none => rw [hlz] at h; cases h
      | some pr =>
        obtain ⟨body, rest⟩ := pr
        rw [hlz] at h
        simp only [Option.map_some'] at h
        cases h
        have h2 : r <:+ r2 := lazyClose_suffix hlz
        have h3 : (c :: r2) <:+ r1 := hsk ▸ skipJsWs_suffix r1
        have h4 : r <:+ r1 := (h2.trans (List.suffix_cons c r2)).trans h3
        constructor
        · have := h2.length_le
          have := h3.length_le
          simp only [List.length_cons] at *
          omega
        · exact h4.trans hsuf1
    · rw [if_neg hc] at h
      cases h

theorem processStream_characterization (evs : List OllamaEvent) :
    ∀ acc, processOllamaStreamEvents evs acc =
      evs.flatMap eventActions ++
        (if (acc ++ collectToolCallRequests evs).length = 0 then []
         else [.scheduleToolCalls (acc ++ collectToolCallRequests evs)]) := by
  induction evs with
  | nil =>
    intro acc
    simp only [processOllamaStreamEvents, collectToolCallRequests, List.filterMap_nil,
      List.flatMap_nil, List.append_nil, List.nil_append]
    by_cases h : acc.length = 0
    · simp [h, Nat.not_lt_of_le (Nat.le_of_eq h.symm), show ¬ acc.length > 0 by omega]
    · simp [h, show acc.length > 0 by omega]
  | cons e rest ih =>
    intro acc
    cases e <;>
      simp [processOllamaStreamEvents, eventActions, collectToolCallRequests,
        List.filterMap_cons, ih, List.append_assoc]

theorem eventActions_no_schedule (e : OllamaEvent) :
    ∀ act ∈ eventActions e, isScheduleAction act = false := by
  cases e <;> simp [eventActions, isScheduleAction]

theorem flatMap_eventActions_no_schedule (evs : List OllamaEvent) :
    (evs.flatMap eventActions).filter isScheduleAction = [] := by
  induction evs with
  | nil => simp
  | cons e rest ih =>
    simp only [List.flatMap_cons, List.filter_append, ih, List.append_nil]
    rw [List.filter_eq_nil_iff.mpr]
    intro a ha
    simp [eventActions_no_schedule e a ha]

/-- Claim C3: while consuming one model event stream, `ToolCallRequest`
events are only accumulated into the current batch; the scheduler is
invoked at most once per stream, with the full accumulated batch (in
order of appearance), and only after the event-consumption loop has
exhausted the stream (the schedule action, when present, is the final
action, and handling an individual event never schedules). -/
theorem claim3_scheduler_once_with_full_batch_after_stream (evs : List OllamaEvent) :
    processOllamaStreamEvents evs [] =
      evs.flatMap eventActions ++
        (if (collectToolCallRequests evs).length = 0 then []
         else [.scheduleToolCalls (collectToolCallRequests evs)]) ∧
    ((processOllamaStreamEvents evs []).filter isScheduleAction).length ≤ 1 ∧
    (evs.flatMap eventActions).filter isScheduleAction = [] := by
  have hmain := processStream_characterization evs []
  simp only [List.nil_append] at hmain
  refine ⟨hmain, ?_, flatMap_eventActions_no_schedule evs⟩
  rw [hmain, List.filter_append, flatMap_eventActions_no_schedule, List.nil_append]
  by_cases h : (collectToolCallRequests evs).length = 0
  · simp [h]
  · simp [h, isScheduleAction, List.filter]

/-- Claim C4: while the streaming state is `Responding` or
`WaitingForConfirmation`, a non-continuation `submitQuery` returns after
only the query-id bookkeeping — nothing is sent to the backend and
nothing is queued (there is no queue: the effect list is exhaustive) —
while a continuation passes the guard and reaches query preparation. -/
theorem claim4_busy_guard_rejects_new_queries (st : StreamingState)
    (shouldProceed queryIsString : Bool)
    (hbusy : st = .responding ∨ st = .waitingForConfirmation) :
    submitQuery st false shouldProceed queryIsString = [.setActiveQueryId] ∧
    SubmitEffect.sendMessageStream ∉ submitQuery st false shouldProceed queryIsString ∧
    SubmitEffect.prepareQuery ∈ submitQuery st true shouldProceed queryIsString := by
  rcases hbusy with rfl | rfl <;> cases shouldProceed <;> cases queryIsString <;> decide

/-- Witness: the busy-guard theorem at a concrete busy state. -/
theorem claim4_busy_guard_rejects_new_queries_witness :
    submitQuery .responding false true true = [.setActiveQueryId] ∧
    SubmitEffect.sendMessageStream ∉ submitQuery .responding false true true ∧
    SubmitEffect.prepareQuery ∈ submitQuery .responding true true true :=
  claim4_busy_guard_rejects_new_queries .responding true true (Or.inl rfl)

/-- Claim C2: if every model-initiated tool call in a completed batch is
terminal with status `cancelled`, no continuation is submitted to the
model; the turn ends locally (responding cleared, and — unless the
escape-key flow already did — a cancellation notice is shown), the
cancelled calls' response parts are recorded in the conversation
history, and the calls are marked submitted. -/
theorem claim2_all_cancelled_batch_not_resubmitted
    (completed : List TrackedToolCall) (turnCancelled modelSwitched : Bool)
    (pm : List String)
    (hne : (completed.filter (fun tc =>
        (tc.status == .success || tc.status == .error || tc.status == .cancelled) &&
        tc.responseParts.isSome)).filter (fun t => !t.isClientInitiated) ≠ [])
    (hcancel : ∀ tc ∈ (completed.filter (fun tc =>
        (tc.status == .success || tc.status == .error || tc.status == .cancelled) &&
        tc.responseParts.isSome)).filter (fun t => !t.isClientInitiated),
        tc.status = .cancelled) :
    (handleCompletedTools completed turnCancelled true modelSwitched pm).continuationSent
      = none ∧
    (handleCompletedTools completed turnCancelled true modelSwitched pm).setIsRespondingFalse
      = true ∧
    (handleCompletedTools completed turnCancelled true modelSwitched pm).addedCancellationNotice
      = !turnCancelled ∧
    (handleCompletedTools completed turnCancelled true modelSwitched pm).historyAdded
      = [((completed.filter (fun tc =>
            (tc.status == .success || tc.status == .error || tc.status == .cancelled) &&
            tc.responseParts.isSome)).filter (fun t => !t.isClientInitiated)).flatMap
          (fun t => t.responseParts.getD [])] ∧
    (handleCompletedTools completed turnCancelled true modelSwitched pm).markedSubmitted
      = ((completed.filter (fun tc =>
            (tc.status == .success || tc.status == .error || tc.status == .cancelled) &&
            tc.responseParts.isSome)).filter (fun t => !t.isClientInitiated)).map
          (fun t => t.callId) := by
  have hlen : ((completed.filter (fun tc =>
      (tc.status == .success || tc.status == .error || tc.status == .cancelled) &&
      tc.responseParts.isSome)).filter (fun t => !t.isClientInitiated)).length ≠ 0 := by
    intro h
    exact hne (List.length_eq_zero.mp h)
  have hall : ((completed.filter (fun tc =>
      (tc.status == .success || tc.status == .error || tc.status == .cancelled) &&
      tc.responseParts.isSome)).filter (fun t => !t.isClientInitiated)).all
        (fun tc => tc.status == .cancelled) = true := by
    rw [List.all_eq_true]
    intro tc htc
    simpa using hcancel tc htc
  simp only [handleCompletedTools, hlen, if_false, hall, if_true]
  refine ⟨?_, ?_, ?_, ?_, ?_⟩ <;> trivial

/-- Witness: a batch of one cancelled model-initiated call. -/
theorem claim2_all_cancelled_batch_not_resubmitted_witness :
    (handleCompletedTools cancelledBatchDemo false true false []).continuationSent
      = none ∧
    (handleCompletedTools cancelledBatchDemo false true false []).setIsRespondingFalse
      = true ∧
    (handleCompletedTools cancelledBatchDemo false true false []).addedCancellationNotice
      = !false ∧
    (handleCompletedTools cancelledBatchDemo false true false []).historyAdded
      = [((cancelledBatchDemo.filter (fun tc =>
            (tc.status == .success || tc.status == .error || tc.status == .cancelled) &&
            tc.responseParts.isSome)).filter (fun t => !t.isClientInitiated)).flatMap
          (fun t => t.responseParts.getD [])] ∧
    (handleCompletedTools cancelledBatchDemo false true false []).markedSubmitted
      = ((cancelledBatchDemo.filter (fun tc =>
            (tc.status == .success || tc.status == .error || tc.status == .cancelled) &&
            tc.responseParts.isSome)).filter (fun t => !t.isClientInitiated)).map
          (fun t => t.callId) :=
  claim2_all_cancelled_batch_not_resubmitted cancelledBatchDemo false false []
    (by decide) (by decide)

/-! ## The content-generator claims -/

/-- Claim C10: when a backend response carries a non-empty native
`tool_calls` list, the returned `functionCalls` are derived exclusively
from that list — the text extractor is never applied to the message
content, so the result is independent of it — both in
`convertFromOllamaFormat` and at the stream's `done` chunk; and a native
call whose string arguments fail to parse as JSON is still returned,
with empty-object args. -/
theorem claim10_native_tool_calls_exclusive
    (tcs : List NativeToolCall) (content content' : String)
    (dr : Option String) (pec ec : Option Nat) (acc acc' : String)
    (n s : String)
    (htcs : tcs ≠ [])
    (hbad : jsonParse s.data = none) :
    (convertFromOllamaFormat ⟨⟨content, tcs⟩, dr, pec, ec⟩).functionCalls
      = tcs.map convTC ∧
    (convertFromOllamaFormat ⟨⟨content, tcs⟩, dr, pec, ec⟩).functionCalls
      = (convertFromOllamaFormat ⟨⟨content', tcs⟩, dr, pec, ec⟩).functionCalls ∧
    doneFunctionCalls tcs acc = tcs.map convTC ∧
    doneFunctionCalls tcs acc = doneFunctionCalls tcs acc' ∧
    convTC ⟨n, .ofString s⟩ = ⟨.str n, .obj []⟩ := by
  have hlen : tcs.length > 0 := by
    cases tcs with
    | nil => exact absurd rfl htcs
    | cons t ts => simp
  refine ⟨?_, ?_, ?_, ?_, ?_⟩
  · simp [convertFromOllamaFormat, hlen]
  · simp [convertFromOllamaFormat, hlen]
  · simp [doneFunctionCalls, hlen]
  · simp [doneFunctionCalls, hlen]
  · simp [convTC, hbad]

/-- Witness: one native call with unparseable string arguments. -/
theorem claim10_native_tool_calls_exclusive_witness :
    (convertFromOllamaFormat ⟨⟨"text with write_file('a','b')",
        [⟨"web_search", .ofString "not json"⟩]⟩, none, none, none⟩).functionCalls
      = [⟨"web_search", NativeArgs.ofString "not json"⟩].map convTC ∧
    (convertFromOllamaFormat ⟨⟨"text with write_file('a','b')",
        [⟨"web_search", .ofString "not json"⟩]⟩, none, none, none⟩).functionCalls
      = (convertFromOllamaFormat ⟨⟨"other text",
        [⟨"web_search", .ofString "not json"⟩]⟩, none, none, none⟩).functionCalls ∧
    doneFunctionCalls [⟨"web_search", .ofString "not json"⟩] "acc"
      = [⟨"web_search", NativeArgs.ofString "not json"⟩].map convTC ∧
    doneFunctionCalls [⟨"web_search", .ofString "not json"⟩] "acc"
      = doneFunctionCalls [⟨"web_search", .ofString "not json"⟩] "other acc" ∧
    convTC ⟨"web_search", .ofString "not json"⟩ = ⟨.str "web_search", .obj []⟩ :=
  claim10_native_tool_calls_exclusive _ _ _ _ _ _ _ _ "web_search" "not json"
    (by simp) rfl

/-- Claim C8: a stream line that fails to parse as JSON is skipped
without terminating processing — the remaining lines are consumed
exactly as if the bad line were absent — and a delimited tool-call
candidate whose payload fails to parse is skipped while scanning
continues after it, so later well-formed candidates are still
extracted. -/
theorem claim8_malformed_chunk_recovered_locally
    (model line : String) (rest : List String) (acc : String)
    (hline : jsonParse (jsTrim line.data) = none)
    (l p r : List Char)
    (hm : matchXMLAt l = some (p, r)) (hp : jsonParse p = none) :
    runStream model (line :: rest) acc = runStream model rest acc ∧
    parseXMLWrappedJSON l = parseXMLWrappedJSON r := by
  constructor
  · simp only [runStream]
    by_cases h0 : (jsTrim line.data).length = 0
    · rw [if_pos h0]
    · rw [if_neg h0, hline]
  · cases l with
    | nil =>
      exact absurd hm (by rw [show matchXMLAt [] = none from rfl]; simp)
    | cons c cs =>
      have hstep := scanStep_of_f hm (matchXMLAt_shrinks hm).1
      unfold parseXMLWrappedJSON
      rw [scanAll_cons_some hstep, List.filterMap_cons,
        show xmlEmit p = none from by simp [xmlEmit, hp]]

/-- Witness: a non-JSON line, and a malformed candidate followed by a
well-formed one. -/
theorem claim8_malformed_chunk_recovered_locally_witness :
    runStream "llama3.2" ["not json", "\x7b\"message\":\x7b\"content\":\"hi\"\x7d,\"done\":true\x7d"] ""
      = runStream "llama3.2" ["\x7b\"message\":\x7b\"content\":\"hi\"\x7d,\"done\":true\x7d"] "" ∧
    parseXMLWrappedJSON
        ("<xml>\x7boops\x7d</xml><xml>\x7b\"name\":\"read_file\",\"arguments\":\x7b\"file\":\"a\"\x7d\x7d</xml>".data)
      = parseXMLWrappedJSON
        ("<xml>\x7b\"name\":\"read_file\",\"arguments\":\x7b\"file\":\"a\"\x7d\x7d</xml>".data) :=
  claim8_malformed_chunk_recovered_locally "llama3.2" "not json"
    ["\x7b\"message\":\x7b\"content\":\"hi\"\x7d,\"done\":true\x7d"] "" rfl
    ("<xml>\x7boops\x7d</xml><xml>\x7b\"name\":\"read_file\",\"arguments\":\x7b\"file\":\"a\"\x7d\x7d</xml>".data)
    ("\x7boops\x7d".data)
    ("<xml>\x7b\"name\":\"read_file\",\"arguments\":\x7b\"file\":\"a\"\x7d\x7d</xml>".data)
    rfl rfl

/-! ## Totality of the extractor (claim C9) -/

theorem tryCatch_xmlShape (p : List Char) :
    tryCatchE ((jsonParseE p).map xmlShape) (fun _ => none) = xmlEmit p := by
  cases h : jsonParse p with
  | none => simp [jsonParseE, tryCatchE, xmlEmit, h, Except.map]
  | some v => simp [jsonParseE, tryCatchE, xmlEmit, xmlShape, h, Except.map]

theorem tryCatch_cbShape (p : List Char) :
    tryCatchE ((jsonParseE p).map xmlShape) (fun _ => none) = cbEmit p := by
  cases h : jsonParse p with
  | none => simp [jsonParseE, tryCatchE, cbEmit, h, Except.map]
  | some v => simp [jsonParseE, tryCatchE, cbEmit, xmlShape, h, Except.map]

theorem tryCatch_bareShape (p : List Char) :
    tryCatchE ((jsonParseE p).map bareShape) (fun _ => none) = bareEmit p := by
  cases h : jsonParse p with
  | none => simp [jsonParseE, tryCatchE, bareEmit, h, Except.map]
  | some v => simp [jsonParseE, tryCatchE, bareEmit, bareShape, h, Except.map]

/-- Claim C9: `parseToolCalls` and `hasToolCalls` are total on arbitrary
input strings and throw nothing: every throwing operation
(`JSON.parse`) sits under a catch, so the exception-transparent
embedding always returns `ok` — with exactly the pure result — and the
Lean definitions themselves certify termination on every input. -/
theorem claim9_extractor_total_never_throws (s : String) :
    parseToolCallsE s.data = .ok (parseToolCalls s) ∧
    hasToolCallsE s.data = .ok (hasToolCalls s) := by
  refine ⟨?_, rfl⟩
  have h1 : parseXMLWrappedJSONE s.data = .ok (parseXMLWrappedJSON s.data) := by
    unfold parseXMLWrappedJSONE parseXMLWrappedJSON
    rw [show (fun p => tryCatchE ((jsonParseE p).map xmlShape) (fun _ => none)) = xmlEmit
      from funext tryCatch_xmlShape]
  have h2 : parseJSONToolCallsE s.data = .ok (parseJSONToolCalls s.data) := by
    unfold parseJSONToolCallsE parseJSONToolCalls parseBareJSON parseCodeBlockJSON
    rw [show (fun p => tryCatchE ((jsonParseE p).map bareShape) (fun _ => none)) = bareEmit
      from funext tryCatch_bareShape,
      show (fun p => tryCatchE ((jsonParseE p).map xmlShape) (fun _ => none)) = cbEmit
      from funext tryCatch_cbShape]
  have h3 : parseFunctionCallFormatE s.data = .ok (parseFunctionCallFormat s.data) := rfl
  show parseToolCallsE s.data = .ok (parseToolCallsL s.data)
  unfold parseToolCallsE parseToolCallsL
  rw [h1]
  simp only [bind, Except.bind]
  by_cases hx : (parseXMLWrappedJSON s.data).length = 0
  · rw [if_pos hx, if_pos hx, h2]
    simp only [Except.bind]
    by_cases hj : (parseJSONToolCalls s.data).length = 0
    · rw [if_pos hj, if_pos hj, h3]
    · rw [if_neg hj, if_neg hj]
      rfl
  · rw [if_neg hx, if_neg hx]
    rfl

/-! ## Counterexamples to the claims as stated, and amended claims -/

/-- Counterexample to claim C1 as stated: `cexBlockC1` renders a
well-formed delimited block — its payload parses as a JSON object of
shape `{name, arguments}` — but because the payload's string value
contains a closing brace followed by the closing delimiter, the lazy
regex body ends the capture early, `JSON.parse` fails on the truncated
capture, and extraction returns nothing instead of the encoded pair. -/
theorem claim1_counterexample :
    jsonParse (renderJson cexBlockC1)
      = some (.obj [("name", .str "write_file"),
                    ("arguments", .obj [("content", .str "\x7d</xml>")])]) ∧
    parseToolCallsL (renderBlock cexBlockC1) = [] ∧
    ([] : List FunctionCall) ≠ [expectedCall cexBlockC1] :=
  ⟨rfl, rfl, (List.cons_ne_nil _ _).symm⟩

/-- Counterexample to claim C5 as stated: `hasToolCalls` reports no
tool calls, yet full extraction recovers an `edit_file` call (the
pre-check's allow-list omits four of the extractor's tool names). -/
theorem claim5_counterexample :
    hasToolCalls "edit_file('a', 'b')" = false ∧
    parseToolCalls "edit_file('a', 'b')"
      = [⟨.str "edit_file", .obj [("file_path", .str "a"), ("old_string", .str "b")]⟩] ∧
    parseToolCalls "edit_file('a', 'b')" ≠ [] :=
  ⟨rfl, rfl, List.cons_ne_nil _ _⟩

/-- Counterexample to claim C6 as stated: the bare-JSON strategy pushes
`parsed.args` without normalization, so the synonym key `path` survives
in the extracted call. -/
theorem claim6_counterexample :
    parseToolCalls "\x7b\"tool\":\"write_file\",\"args\":\x7b\"path\":\"x\"\x7d\x7d"
      = [⟨.str "write_file", .obj [("path", .str "x")]⟩] ∧
    argKeysNormalized ⟨.str "write_file", .obj [("path", .str "x")]⟩ = false ∧
    normalizeParamName "path" (.str "write_file") = "file_path" :=
  ⟨rfl, rfl, rfl⟩

/-- Counterexample to claim C7 as stated: `write_file` occurs only
embedded in the longer identifier `xwrite_file` — never at a line start
or after whitespace — yet the positional strategy extracts a call. -/
theorem claim7_counterexample :
    occursAtBoundary "write_file".data "xwrite_file('a', 'b')".data = false ∧
    parseToolCalls "xwrite_file('a', 'b')"
      = [⟨.str "write_file", .obj [("file_path", .str "a"), ("content", .str "b")]⟩] :=
  ⟨rfl, rfl⟩

theorem stripLit_cons_ne {p0 : Char} {ps l : List Char} {c : Char} (h : ¬ c = p0) :
    stripLit (p0 :: ps) (c :: l) = none := by
  simp [stripLit, h]

theorem matchXMLAt_cons_ne {c : Char} {l : List Char} (h : ¬ c = '<') :
    matchXMLAt (c :: l) = none := by
  unfold matchXMLAt
  rw [show ("<xml>".data) = '<' :: "xml>".data from rfl, stripLit_cons_ne h,
      show ("<tools>".data) = '<' :: "tools>".data from rfl, stripLit_cons_ne h]

theorem matchBareAt_cons_ne {c : Char} {l : List Char} (h : ¬ c = Char.ofNat 123) :
    matchBareAt (c :: l) = none := by
  simp [matchBareAt, h]

theorem matchCBAt_strip_none {l : List Char} (h : stripLit "```".data l = none) :
    matchCBAt l = none := by
  unfold matchCBAt
  rw [h]

theorem matchFnAt_strip_none {n l : List Char} (h : stripLit n l = none) :
    matchFnAt n l = none := by
  unfold matchFnAt
  rw [h]

theorem matchFnCBAt_strip_none {n l : List Char} (h : stripLit "```".data l = none) :
    matchFnCBAt n l = none := by
  unfold matchFnCBAt
  rw [h]

/-- Amended claim C7: the positional strategy matches an allow-listed
tool name wherever it occurs — prepending an arbitrary character (in
particular an identifier character, embedding the name in a longer
word) never prevents the extraction. -/
theorem claim7_amended_embedded_names_extracted (c : Char) :
    parseToolCallsL (c :: demoC7)
      = [⟨.str "write_file", .obj [("file_path", .str "a"), ("content", .str "b")]⟩] := by
  have hxml : matchXMLAt (c :: demoC7) = none := by
    by_cases hc : c = '<'
    · subst hc; rfl
    · exact matchXMLAt_cons_ne hc
  have hbare : matchBareAt (c :: demoC7) = none := by
    by_cases hc : c = Char.ofNat 123
    · subst hc; rfl
    · exact matchBareAt_cons_ne hc
  have htick : ¬ c = Char.ofNat 96 → stripLit "```".data (c :: demoC7) = none := fun hc => by
    rw [show ("```".data) = Char.ofNat 96 :: "``".data from rfl]
    exact stripLit_cons_ne hc
  have hcb : matchCBAt (c :: demoC7) = none := by
    by_cases hc : c = Char.ofNat 96
    · subst hc; rfl
    · exact matchCBAt_strip_none (htick hc)
  have hfn1 : matchFnAt "write_file".data (c :: demoC7) = none := by
    by_cases hc : c = 'w'
    · subst hc; rfl
    · exact matchFnAt_strip_none (by
        rw [show ("write_file".data) = 'w' :: "rite_file".data from rfl]
        exact stripLit_cons_ne hc)
  have hfn2 : matchFnAt "read_file".data (c :: demoC7) = none := by
    by_cases hc : c = 'r'
    · subst hc; rfl
    · exact matchFnAt_strip_none (by
        rw [show ("read_file".data) = 'r' :: "ead_file".data from rfl]
        exact stripLit_cons_ne hc)
  have hfn3 : matchFnAt "list_directory".data (c :: demoC7) = none := by
    by_cases hc : c = 'l'
    · subst hc; rfl
    · exact matchFnAt_strip_none (by
        rw [show ("list_directory".data) = 'l' :: "ist_directory".data from rfl]
        exact stripLit_cons_ne hc)
  have hfn4 : matchFnAt "run_shell_command".data (c :: demoC7) = none := by
    by_cases hc : c = 'r'
    · subst hc; rfl
    · exact matchFnAt_strip_none (by
        rw [show ("run_shell_command".data) = 'r' :: "un_shell_command".data from rfl]
        exact stripLit_cons_ne hc)
  have hfn5 : matchFnAt "replace_in_file".data (c :: demoC7) = none := by
    by_cases hc : c = 'r'
    · subst hc; rfl
    · exact matchFnAt_strip_none (by
        rw [show ("replace_in_file".data) = 'r' :: "eplace_in_file".data from rfl]
        exact stripLit_cons_ne hc)
  have hfn6 : matchFnAt "edit_file".data (c :: demoC7) = none := by
    by_cases hc : c = 'e'
    · subst hc; rfl
    · exact matchFnAt_strip_none (by
        rw [show ("edit_file".data) = 'e' :: "dit_file".data from rfl]
        exact stripLit_cons_ne hc)
  have hfn7 : matchFnAt "search_files".data (c :: demoC7) = none := by
    by_cases hc : c = 's'
    · subst hc; rfl
    · exact matchFnAt_strip_none (by
        rw [show ("search_files".data) = 's' :: "earch_files".data from rfl]
        exact stripLit_cons_ne hc)
  have hfn8 : matchFnAt "web_search".data (c :: demoC7) = none := by
    by_cases hc : c = 'w'
    · subst hc; rfl
    · exact matchFnAt_strip_none (by
        rw [show ("web_search".data) = 'w' :: "eb_search".data from rfl]
        exact stripLit_cons_ne hc)
  have hfcb : ∀ n : List Char, matchFnCBAt n (c :: demoC7) = none := by
    intro n
    by_cases hc : c = Char.ofNat 96
    · subst hc
      exact matchFnCBAt_strip_none rfl
    · exact matchFnCBAt_strip_none (htick hc)
  have H1 : parseXMLWrappedJSON (c :: demoC7) = parseXMLWrappedJSON demoC7 := by
    unfold parseXMLWrappedJSON
    rw [scanAll_cons_none (scanStep_of_f_none hxml)]
  have H2 : parseJSONToolCalls (c :: demoC7) = parseJSONToolCalls demoC7 := by
    unfold parseJSONToolCalls parseBareJSON parseCodeBlockJSON
    rw [scanAll_cons_none (scanStep_of_f_none hbare),
        scanAll_cons_none (scanStep_of_f_none hcb)]
  have He : ∀ n : String, matchFnAt n.data (c :: demoC7) = none →
      extractFunctionCalls (c :: demoC7) n = extractFunctionCalls demoC7 n := by
    intro n hn
    unfold extractFunctionCalls
    rw [scanAll_cons_none (scanStep_of_f_none hn),
        scanAll_cons_none (scanStep_of_f_none (hfcb n.data))]
  have H3 : parseFunctionCallFormat (c :: demoC7) = parseFunctionCallFormat demoC7 := by
    unfold parseFunctionCallFormat
    simp only [toolNames, List.flatMap_cons, List.flatMap_nil]
    rw [He _ hfn1, He _ hfn2, He _ hfn3, He _ hfn4, He _ hfn5, He _ hfn6,
        He _ hfn7, He _ hfn8]
  have Hsame : parseToolCallsL (c :: demoC7) = parseToolCallsL demoC7 := by
    unfold parseToolCallsL
    rw [H1, H2, H3]
  rw [Hsame]
  rfl

/-! ## What a successful match implies about the text (for the amended
pre-check claim) -/

theorem matchFnAt_inv {n l : List Char} {args r : List Char}
    (h : matchFnAt n l = some (args, r)) :
    matchToolPatAt n l = true ∧ r <:+ l := by
  unfold matchFnAt at h
  split at h
  · cases h
  · rename_i r1 h1
    split at h
    · rename_i r2 h2
      simp only at h
      split at h
      · rename_i d r3 h3
        cases h
        constructor
        · unfold matchToolPatAt
          rw [h1]
          simp only
          rw [h2]
          rfl
        · have hd : d :: r <:+ r2 := h3 ▸ List.drop_suffix _ r2
          have hr3 : r <:+ r2 := (List.suffix_cons d r).trans hd
          have h4 : '(' :: r2 <:+ r1 := h2 ▸ skipJsWs_suffix r1
          exact ((hr3.trans (List.suffix_cons '(' r2)).trans h4).trans
            (stripLit_suffix h1)
      · cases h
    · cases h

theorem anyPos_eq_true {p : List Char → Bool} :
    ∀ {l : List Char}, anyPos p l = true → ∃ s, s <:+ l ∧ p s = true := by
  intro l
  induction l with
  | nil =>
    intro h
    exact ⟨[], List.suffix_refl [], by simpa [anyPos] using h⟩
  | cons c cs ih =>
    intro h
    simp only [anyPos, Bool.or_eq_true] at h
    rcases h with h | h
    · exact ⟨c :: cs, List.suffix_refl _, h⟩
    · obtain ⟨s, hs, hp⟩ := ih h
      exact ⟨s, hs.trans (List.suffix_cons c cs), hp⟩

theorem containsSub_mono {pat l' l : List Char} (hsuf : l' <:+ l)
    (h : containsSub pat l' = true) : containsSub pat l = true := by
  obtain ⟨s, hs, hp⟩ := anyPos_eq_true h
  exact anyPos_of_suffix (hs.trans hsuf) hp

theorem matchBareAt_inv {l m r : List Char} (h : matchBareAt l = some (m, r)) :
    containsSub "\"tool\"".data l = true ∧ r <:+ l := by
  unfold matchBareAt at h
  split at h
  · cases h
  · rename_i c cs
    by_cases hc : c = Char.ofNat 123
    · rw [if_pos hc] at h
      split at h
      · rename_i rest hfs
        cases h
        obtain ⟨s1, hs1, hg⟩ := firstSome_eq_some hfs
        have hs1l : s1 <:+ c :: cs := (mem_greedySplits hs1).trans (List.suffix_cons c cs)
        split at hg
        · cases hg
        · rename_i r1 h1
          refine ⟨containsSub_of_strip hs1l h1, ?_⟩
          split at hg
          · rename_i r3 h3
            split at hg
            · rename_i r5 h5
              simp only at hg
              split at hg
              · cases hg
              · split at hg
                · rename_i r6 h6
                  obtain ⟨s2, hs2, hg2⟩ := firstSome_eq_some hg
                  split at hg2
                  · cases hg2
                  · rename_i r7 h7
                    split at hg2
                    · rename_i r9 h9
                      split at hg2
                      · rename_i d r11 h11
                        split at hg2
                        · split at hg2
                          · rename_i d2 r12 h12
                            split at hg2
                            · split at hg2
                              · rename_i d3 r13 h13
                                split at hg2
                                · cases hg2
                                  have c13 : r <:+ r12 :=
                                    (List.suffix_cons d3 r).trans
                                      (h13 ▸ List.drop_suffix _ r12)
                                  have c12 : r12 <:+ r11 :=
                                    (List.suffix_cons d2 r12).trans
                                      (h12 ▸ List.drop_suffix _ r11)
                                  have c11 : r11 <:+ r9 :=
                                    (List.suffix_cons d r11).trans
                                      (h11 ▸ skipJsWs_suffix r9)
                                  have c9 : r9 <:+ r7 :=
                                    (List.suffix_cons ':' r9).trans
                                      (h9 ▸ skipJsWs_suffix r7)
                                  have c7 : r7 <:+ s2 := stripLit_suffix h7
                                  have c6 : s2 <:+ r6 := mem_greedySplits hs2
                                  have c5 : r6 <:+ r5 :=
                                    (List.suffix_cons '"' r6).trans
                                      (h6 ▸ List.drop_suffix _ r5)
                                  have c3 : r5 <:+ r3 :=
                                    (List.suffix_cons '"' r5).trans
                                      (h5 ▸ skipJsWs_suffix r3)
                                  have c1 : r3 <:+ r1 :=
                                    (List.suffix_cons ':' r3).trans
                                      (h3 ▸ skipJsWs_suffix r1)
                                  have c0 : r1 <:+ s1 := stripLit_suffix h1
                                  exact ((((((((((c13.trans c12).trans c11).trans
                                    c9).trans c7).trans c6).trans c5).trans
                                    c3).trans c1).trans c0).trans hs1l)
                                · cases hg2
                              · cases hg2
                            · cases hg2
                          · cases hg2
                        · cases hg2
                      · cases hg2
                    · cases hg2
                · cases hg
            · cases hg
          · cases hg
      · cases h
    · rw [if_neg hc] at h
      cases h

theorem matchFnCBAt_inv {n l : List Char} {args r : List Char}
    (h : matchFnCBAt n l = some (args, r)) :
    (∃ s1, s1 <:+ l ∧ matchToolPatAt n s1 = true) ∧ r <:+ l := by
  unfold matchFnCBAt at h
  split at h
  · cases h
  · rename_i r1 h1
    obtain ⟨s1, hs1, hg⟩ := firstSome_eq_some h
    have hs1l : s1 <:+ l := (mem_greedySplits hs1).trans (stripLit_suffix h1)
    split at hg
    · cases hg
    · rename_i r2 h2
      split at hg
      · rename_i r3 h3
        simp only at hg
        split at hg
        · rename_i d r4 h4
          obtain ⟨s2, hs2, hg2⟩ := firstSome_eq_some hg
          cases h5 : stripLit "```".data s2 with
          | none => rw [h5] at hg2; cases hg2
          | some r5 =>
            rw [h5] at hg2
            simp only [Option.map_some'] at hg2
            cases hg2
            constructor
            · refine ⟨s1, hs1l, ?_⟩
              unfold matchToolPatAt
              rw [h2]
              simp only
              rw [h3]
              rfl
            · have c5 : r <:+ s2 := stripLit_suffix h5
              have c4 : s2 <:+ r4 := mem_greedySplits hs2
              have cd : r4 <:+ r3 :=
                (List.suffix_cons d r4).trans (h4 ▸ List.drop_suffix _ r3)
              have c3 : r3 <:+ r2 :=
                (List.suffix_cons '(' r3).trans (h3 ▸ skipJsWs_suffix r2)
              have c2 : r2 <:+ s1 := stripLit_suffix h2
              exact ((((c5.trans c4).trans cd).trans c3).trans c2).trans hs1l
        · cases hg
      · cases hg

theorem toolPatternTest_of_match {n : String} (hn : n ∈ checkedToolNames)
    {s l : List Char} (hs : s <:+ l) (hm : matchToolPatAt n.data s = true) :
    toolPatternTest l = true := by
  apply anyPos_of_suffix hs
  simp only [checkedToolNames, List.mem_cons, List.not_mem_nil, or_false] at hn
  rcases hn with rfl | rfl | rfl | rfl <;> simp [hm]

theorem scanAll_matchBareAt_nil {l : List Char}
    (h : containsSub "\"tool\"".data l = false) :
    scanAll matchBareAt l = [] := by
  by_contra hne
  obtain ⟨a, ha⟩ := List.exists_mem_of_ne_nil _ hne
  obtain ⟨l', r, hl', hf⟩ :=
    mem_scanAll (fun l a r hf => (matchBareAt_inv hf).2) ha
  rw [containsSub_mono hl' (matchBareAt_inv hf).1] at h
  cases h

theorem extractFunctionCalls_checked_nil {s : List Char}
    (htp : toolPatternTest s = false) {n : String} (hn : n ∈ checkedToolNames) :
    extractFunctionCalls s n = [] := by
  have h1 : scanAll (matchFnAt n.data) s = [] := by
    by_contra hne
    obtain ⟨a, ha⟩ := List.exists_mem_of_ne_nil _ hne
    obtain ⟨l', r, hl', hf⟩ :=
      mem_scanAll (fun l a r hf => (matchFnAt_inv hf).2) ha
    rw [toolPatternTest_of_match hn hl' (matchFnAt_inv hf).1] at htp
    cases htp
  have h2 : scanAll (matchFnCBAt n.data) s = [] := by
    by_contra hne
    obtain ⟨a, ha⟩ := List.exists_mem_of_ne_nil _ hne
    obtain ⟨l', r, hl', hf⟩ :=
      mem_scanAll (fun l a r hf => (matchFnCBAt_inv hf).2) ha
    obtain ⟨s1, hs1, hm⟩ := (matchFnCBAt_inv hf).1
    rw [toolPatternTest_of_match hn (hs1.trans hl') hm] at htp
    cases htp
  unfold extractFunctionCalls
  rw [h1, h2]
  simp

theorem hasToolCalls_false_parts {l : List Char} (h : hasToolCallsL l = false) :
    containsSub "\"tool\"".data l = false ∧ toolPatternTest l = false := by
  unfold hasToolCallsL at h
  simp only [Bool.or_eq_false_iff] at h
  obtain ⟨⟨⟨-, htool, -⟩, -⟩, htp⟩ := h
  exact ⟨htool, htp⟩

theorem toolNames_split : ∀ n ∈ toolNames,
    n ∈ checkedToolNames ∨ n ∈ uncheckedToolNames := by
  decide

/-- Amended claim C5: `hasToolCalls = false` guarantees that the
bare-JSON pattern extracts nothing and that the positional strategy
extracts nothing for the four tool names the pre-check knows about
(`write_file`, `read_file`, `list_directory`, `run_shell_command`); any
call full extraction still recovers on such a text comes from the
delimited-JSON scanner, the fenced-code-block scanner, or a positional
call to one of the four names the pre-check does not check
(`replace_in_file`, `edit_file`, `search_files`, `web_search`) — the
counterexample shows the pre-check can indeed miss those. -/
theorem claim5_amended_precheck_can_miss_unchecked_names (s : String)
    (h : hasToolCalls s = false) :
    parseBareJSON s.data = [] ∧
    (∀ n ∈ checkedToolNames, extractFunctionCalls s.data n = []) ∧
    (∀ call ∈ parseToolCalls s,
      call ∈ parseXMLWrappedJSON s.data ∨ call ∈ parseCodeBlockJSON s.data ∨
      ∃ n ∈ uncheckedToolNames, call ∈ extractFunctionCalls s.data n) := by
  obtain ⟨htool, htp⟩ := hasToolCalls_false_parts h
  have hbare : parseBareJSON s.data = [] := by
    unfold parseBareJSON
    rw [scanAll_matchBareAt_nil htool]
    rfl
  refine ⟨hbare, fun n hn => extractFunctionCalls_checked_nil htp hn, ?_⟩
  intro call hc
  have hc' : call ∈ parseToolCallsL s.data := hc
  unfold parseToolCallsL at hc'
  by_cases hx : (parseXMLWrappedJSON s.data).length = 0
  · rw [if_pos hx] at hc'
    by_cases hj : (parseJSONToolCalls s.data).length = 0
    · rw [if_pos hj] at hc'
      unfold parseFunctionCallFormat at hc'
      obtain ⟨n, hn, hcall⟩ := List.mem_flatMap.mp hc'
      rcases toolNames_split n hn with hcn | hun
      · rw [extractFunctionCalls_checked_nil htp hcn] at hcall
        cases hcall
      · exact Or.inr (Or.inr ⟨n, hun, hcall⟩)
    · rw [if_neg hj] at hc'
      unfold parseJSONToolCalls at hc'
      rcases List.mem_append.mp hc' with h1 | h2
      · rw [hbare] at h1
        cases h1
      · exact Or.inr (Or.inl h2)
  · rw [if_neg hx] at hc'
    exact Or.inl hc'

/-- Witness: the amended pre-check claim at the counterexample text,
with the quantifiers instantiated — the pre-check says `false`, the
bare-JSON and checked-name strategies extract nothing, and the one call
extraction recovers is accounted for by an unchecked name. -/
theorem claim5_amended_precheck_witness :
    parseBareJSON "edit_file('a', 'b')".data = [] ∧
    extractFunctionCalls "edit_file('a', 'b')".data "write_file" = [] ∧
    ((⟨.str "edit_file", .obj [("file_path", .str "a"), ("old_string", .str "b")]⟩ : FunctionCall)
        ∈ parseXMLWrappedJSON "edit_file('a', 'b')".data ∨
     (⟨.str "edit_file", .obj [("file_path", .str "a"), ("old_string", .str "b")]⟩ : FunctionCall)
        ∈ parseCodeBlockJSON "edit_file('a', 'b')".data ∨
     ∃ n ∈ uncheckedToolNames,
       (⟨.str "edit_file", .obj [("file_path", .str "a"), ("old_string", .str "b")]⟩ : FunctionCall)
        ∈ extractFunctionCalls "edit_file('a', 'b')".data n) :=
  ⟨(claim5_amended_precheck_can_miss_unchecked_names "edit_file('a', 'b')" rfl).1,
   (claim5_amended_precheck_can_miss_unchecked_names "edit_file('a', 'b')" rfl).2.1
     "write_file" (by decide),
   (claim5_amended_precheck_can_miss_unchecked_names "edit_file('a', 'b')" rfl).2.2
     ⟨.str "edit_file", .obj [("file_path", .str "a"), ("old_string", .str "b")]⟩
     (List.Mem.head _)⟩

/-! ## Key normalization of the non-bare strategies (amended claim C6) -/

theorem normalizeParamName_not_synonym (k : String) (t : JValue) :
    synonymKeys.contains (normalizeParamName k t) = false := by
  unfold normalizeParamName
  by_cases h1 : k = "path" ∨ k = "filepath" ∨ k = "file"
  · rw [if_pos h1]; decide
  · rw [if_neg h1]
    by_cases h2 : k = "cmd" ∨ k = "command"
    · rw [if_pos h2]; decide
    · rw [if_neg h2]
      by_cases h3 : k = "dir" ∨ k = "directory" ∨ k = "folder"
      · rw [if_pos h3]; decide
      · rw [if_neg h3]
        push_neg at h1 h2 h3
        simp only [synonymKeys, List.contains_cons, List.contains_nil,
          Bool.or_eq_false_iff, beq_eq_false_iff_ne, ne_eq]
        exact ⟨h1.1, h1.2.1, h1.2.2, h2.1, h3.1, h3.2.1, ⟨h3.2.2, trivial⟩⟩

theorem objAssign_preserves {P : String → Bool} {k : String} {v : JValue}
    (hk : P k = true) :
    ∀ {fs : List (String × JValue)}, (∀ kv ∈ fs, P kv.1 = true) →
      ∀ kv ∈ objAssign k v fs, P kv.1 = true := by
  intro fs
  induction fs with
  | nil =>
    intro _ kv hkv
    simp only [objAssign, List.mem_singleton] at hkv
    subst hkv
    exact hk
  | cons x xs ih =>
    intro hfs kv hkv
    obtain ⟨k', v'⟩ := x
    simp only [objAssign] at hkv
    by_cases he : k' = k
    · rw [if_pos he] at hkv
      rcases List.mem_cons.mp hkv with rfl | hkv
      · exact hfs (k', v') (List.mem_cons_self _ _)
      · exact hfs kv (List.mem_cons_of_mem _ hkv)
    · rw [if_neg he] at hkv
      rcases List.mem_cons.mp hkv with rfl | hkv
      · exact hfs (k', v') (List.mem_cons_self _ _)
      · exact ih (fun y hy => hfs y (List.mem_cons_of_mem _ hy)) kv hkv

theorem foldl_objAssign_preserves {α : Type} {P : String → Bool}
    (key : α → String) (val : α → JValue) (hkey : ∀ x, P (key x) = true) :
    ∀ (entries : List α) (acc : List (String × JValue)),
      (∀ kv ∈ acc, P kv.1 = true) →
      ∀ kv ∈ entries.foldl (fun a x => objAssign (key x) (val x) a) acc,
        P kv.1 = true := by
  intro entries
  induction entries with
  | nil => intro acc hacc kv hkv; exact hacc kv hkv
  | cons x xs ih =>
    intro acc hacc kv hkv
    simp only [List.foldl_cons] at hkv
    exact ih (objAssign (key x) (val x) acc)
      (objAssign_preserves (hkey x) hacc) kv hkv

theorem normalizeArguments_keys (args toolName : JValue) :
    ∀ kv ∈ normalizeArguments args toolName, synonymKeys.contains kv.1 = false := by
  intro kv hkv
  rw [← Bool.not_eq_true']
  unfold normalizeArguments at hkv
  exact foldl_objAssign_preserves (P := fun k => !synonymKeys.contains k)
    (fun x => normalizeParamName x.1 toolName) (fun x => x.2)
    (fun x => by
      rw [Bool.not_eq_true']
      exact normalizeParamName_not_synonym x.1 toolName)
    (jsEntries args) [] (by intro y hy; cases hy) kv hkv

theorem getPositionalParamName_not_synonym (t : String) (i : Nat)
    (hi : i = 0 ∨ i = 1) :
    synonymKeys.contains (getPositionalParamName t i) = false := by
  rcases hi with rfl | rfl <;>
    (unfold getPositionalParamName
     split_ifs <;> decide)

theorem xmlShape_keys_normalized {v : JValue} {call : FunctionCall}
    (h : xmlShape v = some call) : argKeysNormalized call = true := by
  unfold xmlShape at h
  split_ifs at h <;>
  · cases h
    simp only [argKeysNormalized, List.all_eq_true]
    intro kv hkv
    rw [Bool.not_eq_true']
    exact normalizeArguments_keys _ _ kv hkv

theorem xmlEmit_keys_normalized {p : List Char} {call : FunctionCall}
    (h : xmlEmit p = some call) : argKeysNormalized call = true := by
  rw [← tryCatch_xmlShape] at h
  cases hj : jsonParse p with
  | none => rw [show tryCatchE ((jsonParseE p).map xmlShape) (fun _ => none) = none
      from by simp [jsonParseE, tryCatchE, hj, Except.map]] at h; cases h
  | some v =>
    rw [show tryCatchE ((jsonParseE p).map xmlShape) (fun _ => none) = xmlShape v
      from by simp [jsonParseE, tryCatchE, hj, Except.map]] at h
    exact xmlShape_keys_normalized h

theorem cbEmit_keys_normalized {p : List Char} {call : FunctionCall}
    (h : cbEmit p = some call) : argKeysNormalized call = true := by
  rw [← tryCatch_cbShape] at h
  cases hj : jsonParse p with
  | none => rw [show tryCatchE ((jsonParseE p).map xmlShape) (fun _ => none) = none
      from by simp [jsonParseE, tryCatchE, hj, Except.map]] at h; cases h
  | some v =>
    rw [show tryCatchE ((jsonParseE p).map xmlShape) (fun _ => none) = xmlShape v
      from by simp [jsonParseE, tryCatchE, hj, Except.map]] at h
    exact xmlShape_keys_normalized h

theorem parseArguments_keys_normalized {args : List Char} {toolName : String}
    {a : List (String × JValue)} (h : parseArguments args toolName = some a) :
    ∀ kv ∈ a, synonymKeys.contains kv.1 = false := by
  have hpos : ∀ (t : String) (i : Nat), i = 0 ∨ i = 1 →
      (!synonymKeys.contains (getPositionalParamName t i)) = true := by
    intro t i hi
    rw [Bool.not_eq_true']
    exact getPositionalParamName_not_synonym t i hi
  unfold parseArguments at h
  by_cases hkvs : scanAll matchKVAt args ≠ []
  · rw [if_pos hkvs] at h
    cases h
    intro kv hkv
    rw [← Bool.not_eq_true']
    exact foldl_objAssign_preserves (P := fun k => !synonymKeys.contains k)
      (fun kv => normalizeParamName (String.mk kv.1) (.str toolName))
      (fun kv => .str (String.mk kv.2))
      (fun kv => by
        rw [Bool.not_eq_true']
        exact normalizeParamName_not_synonym (String.mk kv.1) (.str toolName))
      (scanAll matchKVAt args) [] (by intro y hy; cases hy) kv hkv
  · rw [if_neg hkvs] at h
    by_cases hcomma : containsSub [','] (jsTrim args) = true
    · rw [if_pos hcomma] at h
      by_cases h2 : (splitArguments (jsTrim args)).length = 2
      · rw [if_pos h2] at h
        cases h
        intro kv hkv
        rw [← Bool.not_eq_true']
        refine objAssign_preserves (P := fun k => !synonymKeys.contains k) (hpos _ 1 (Or.inr rfl)) (fun y hy => ?_) kv hkv
        refine objAssign_preserves (P := fun k => !synonymKeys.contains k) (hpos _ 0 (Or.inl rfl)) (fun z hz => ?_) y hy
        cases hz
      · rw [if_neg h2] at h
        by_cases h1 : (splitArguments (jsTrim args)).length = 1
        · rw [if_pos h1] at h
          cases h
          intro kv hkv
          rw [← Bool.not_eq_true']
          refine objAssign_preserves (P := fun k => !synonymKeys.contains k) (hpos _ 0 (Or.inl rfl)) (fun z hz => ?_) kv hkv
          cases hz
        · rw [if_neg h1] at h
          cases h
    · rw [if_neg hcomma] at h
      by_cases hlen : (jsTrim args).length > 0
      · rw [if_pos hlen] at h
        cases h
        intro kv hkv
        rw [← Bool.not_eq_true']
        refine objAssign_preserves (P := fun k => !synonymKeys.contains k) (hpos _ 0 (Or.inl rfl)) (fun z hz => ?_) kv hkv
        cases hz
      · rw [if_neg hlen] at h
        cases h

/-- Amended claim C6: every call produced by the delimited-JSON
strategy, the fenced-code-block strategy, or the positional-call
strategy has had each argument key passed through the synonym table (no
non-canonical synonym key survives); only the bare-JSON pattern — shown
by the counterexample — pushes its parsed `args` object unnormalized. -/
theorem claim6_amended_all_but_bare_normalize (s : String) :
    (parseXMLWrappedJSON s.data).all argKeysNormalized = true ∧
    (parseCodeBlockJSON s.data).all argKeysNormalized = true ∧
    (parseFunctionCallFormat s.data).all argKeysNormalized = true := by
  refine ⟨?_, ?_, ?_⟩
  · rw [List.all_eq_true]
    intro call hc
    obtain ⟨p, -, hemit⟩ := List.mem_filterMap.mp hc
    exact xmlEmit_keys_normalized hemit
  · rw [List.all_eq_true]
    intro call hc
    obtain ⟨p, -, hemit⟩ := List.mem_filterMap.mp hc
    exact cbEmit_keys_normalized hemit
  · rw [List.all_eq_true]
    intro call hc
    obtain ⟨n, -, hcall⟩ := List.mem_flatMap.mp hc
    unfold extractFunctionCalls at hcall
    rcases List.mem_append.mp hcall with hm | hm <;>
    · obtain ⟨args, -, hmap⟩ := List.mem_filterMap.mp hm
      cases hpa : parseArguments args n with
      | none => rw [hpa] at hmap; cases hmap
      | some a =>
        rw [hpa] at hmap
        simp only [Option.map_some'] at hmap
        cases hmap
        simp only [argKeysNormalized, List.all_eq_true]
        intro kv hkv
        rw [Bool.not_eq_true']
        exact parseArguments_keys_normalized hpa kv hkv

/-! ## The delimited-JSON round trip (amended claim C1) -/

theorem firstSome_eq_none {α β : Type} {xs : List α} {g : α → Option β}
    (h : ∀ x ∈ xs, g x = none) : firstSome xs g = none := by
  induction xs with
  | nil => rfl
  | cons x xs ih =>
    simp only [firstSome, h x (List.mem_cons_self x xs)]
    exact ih (fun y hy => h y (List.mem_cons_of_mem x hy))

theorem wsThenNewline_suffix {l r : List Char} (h : wsThenNewline l = some r) :
    r <:+ l := by
  unfold wsThenNewline at h
  obtain ⟨s, hs, hg⟩ := firstSome_eq_some h
  cases s with
  | nil => cases hg
  | cons c r' =>
    simp only at hg
    by_cases hc : c = '\n'
    · rw [if_pos hc] at hg
      cases hg
      exact (List.suffix_cons c r).trans (mem_greedySplits hs)
    · rw [if_neg hc] at hg
      cases hg

theorem scanAll_eq_cons {α : Type} {f : List Char → Option (α × List Char)}
    {l : List Char} {a : α} {r : List Char} (hne : l ≠ [])
    (h : scanStep f l = some (a, r)) :
    scanAll f l = a :: scanAll f r := by
  cases l with
  | nil => exact absurd rfl hne
  | cons c cs => exact scanAll_cons_some h

theorem matchCBAt_no_brace {l : List Char}
    (h : ∀ c ∈ l, ¬ c = Char.ofNat 123) : matchCBAt l = none := by
  unfold matchCBAt
  split
  · rfl
  · rename_i r1 h1
    apply firstSome_eq_none
    intro r2 hr2
    have hr1 : r1 <:+ l := stripLit_suffix h1
    have hr2l : r2 <:+ l := by
      cases hsj : stripLit "json".data r1 with
      | some rj =>
        rw [hsj] at hr2
        rcases List.mem_cons.mp hr2 with rfl | hr2
        · exact (stripLit_suffix hsj).trans hr1
        · rw [List.mem_singleton.mp hr2]
          exact hr1
      | none =>
        rw [hsj] at hr2
        rw [List.mem_singleton.mp hr2]
        exact hr1
    cases hw : wsThenNewline r2 with
    | none => rfl
    | some r3 =>
      have hr3 : r3 <:+ l := (wsThenNewline_suffix hw).trans hr2l
      cases hr3' : r3 with
      | nil => rfl
      | cons c r4 =>
        have hc : ¬ c = Char.ofNat 123 :=
          h c (hr3.subset (hr3' ▸ List.mem_cons_self c r4))
        simp only
        rw [if_neg hc]

theorem matchFnAt_no_paren {n l : List Char}
    (h : ∀ c ∈ l, ¬ c = '(') : matchFnAt n l = none := by
  unfold matchFnAt
  split
  · rfl
  · rename_i r1 h1
    split
    · rename_i r2 h2
      have : '(' ∈ l := by
        have hsub : '(' :: r2 <:+ l := (h2 ▸ skipJsWs_suffix r1).trans (stripLit_suffix h1)
        exact hsub.subset (List.mem_cons_self _ _)
      exact absurd rfl (h '(' this)
    · rfl

theorem safeStrChar_spec {c : Char} (h : safeStrChar c = true) :
    ¬ c = '"' ∧ ¬ c = '\\' ∧ ¬ c = Char.ofNat 123 ∧ ¬ c = Char.ofNat 125 ∧
    ¬ c.val < 0x20 := by
  simp only [safeStrChar, Bool.and_eq_true, Bool.not_eq_true', Bool.or_eq_false_iff,
    decide_eq_false_iff_not] at h
  exact ⟨h.1.1.1.1, h.1.1.1.2, h.1.1.2, h.1.2, h.2⟩

theorem parseStrChars_safe :
    ∀ {s : List Char}, (∀ c ∈ s, safeStrChar c = true) →
      ∀ r : List Char, parseStrChars (s ++ '"' :: r) = some (s, r) := by
  intro s
  induction s with
  | nil =>
    intro _ r
    rw [List.nil_append, parseStrChars.eq_def]
    simp
  | cons c cs ih =>
    intro hs r
    obtain ⟨h1, h2, -, -, h5⟩ := safeStrChar_spec (hs c (List.mem_cons_self c cs))
    rw [List.cons_append, parseStrChars.eq_def]
    simp only []
    rw [if_neg h1, if_neg h2, if_neg h5,
      ih (fun d hd => hs d (List.mem_cons_of_mem c hd)) r]
    rfl

theorem objAssign_not_mem {k : String} {v : JValue} :
    ∀ {fs : List (String × JValue)}, k ∉ fs.map Prod.fst →
      objAssign k v fs = fs ++ [(k, v)] := by
  intro fs
  induction fs with
  | nil => intro _; rfl
  | cons x xs ih =>
    intro hk
    obtain ⟨k', v'⟩ := x
    simp only [List.map_cons, List.mem_cons] at hk
    push_neg at hk
    simp only [objAssign]
    rw [if_neg (fun he => hk.1 he.symm), ih hk.2]
    rfl

theorem foldl_objAssign_eq_append :
    ∀ (pairs acc : List (String × JValue)),
      (∀ k ∈ pairs.map Prod.fst, k ∉ acc.map Prod.fst) →
      (pairs.map Prod.fst).Nodup →
      pairs.foldl (fun a kv => objAssign kv.1 kv.2 a) acc = acc ++ pairs := by
  intro pairs
  induction pairs with
  | nil => intro acc _ _; simp
  | cons kv ps ih =>
    intro acc hdisj hnd
    simp only [List.foldl_cons]
    have hk : kv.1 ∉ acc.map Prod.fst :=
      hdisj kv.1 (by simp)
    rw [objAssign_not_mem hk]
    rw [List.map_cons] at hnd
    obtain ⟨hnd1, hnd2⟩ := List.nodup_cons.mp hnd
    rw [ih (acc ++ [kv]) ?_ hnd2]
    · simp
    · intro k hkp
      simp only [List.map_append, List.mem_append, List.map_cons, List.map_nil,
        List.mem_singleton, not_or]
      refine ⟨hdisj k (by simp [hkp]), ?_⟩
      intro he
      exact hnd1 (he ▸ hkp)

theorem renderMembers_length :
    ∀ args : List (String × String), args.length ≤ (renderMembers args).length := by
  intro args
  induction args with
  | nil => simp [renderMembers]
  | cons kv tl ih =>
    cases tl with
    | nil => simp [renderMembers, renderQuoted]
    | cons kv2 tl2 =>
      rw [renderMembers]
      · simp only [List.length_cons] at ih
        simp only [List.length_cons, List.length_append]
        omega
      · simp

theorem parseVal_str {s : String} (hs : safeStr s = true) {fuel : Nat}
    (hf : 1 ≤ fuel) (r : List Char) :
    parseVal fuel ('"' :: (s.data ++ '"' :: r)) = some (.str s, r) := by
  obtain ⟨f, rfl⟩ : ∃ f, fuel = f + 1 := ⟨fuel - 1, by omega⟩
  rw [parseVal]
  rw [if_pos rfl]
  rw [safeStr] at hs
  rw [parseStrChars_safe (List.all_eq_true.mp hs) r]
  rfl

theorem renderMembers_cons_head (kv : String × String) (tl : List (String × String)) :
    renderMembers (kv :: tl) = '"' :: (renderMembers (kv :: tl)).tail := by
  cases tl <;> rfl

theorem parseMembers_render :
    ∀ (args : List (String × String)),
      (∀ kv ∈ args, safeStr kv.1 = true ∧ safeStr kv.2 = true) →
      args ≠ [] →
      ∀ fuel : Nat, args.length + 1 ≤ fuel →
      ∀ (acc : List (String × JValue)) (rest : List Char),
      parseMembers fuel (renderMembers args ++ Char.ofNat 125 :: rest) acc =
        some (.obj (args.foldl (fun a kv => objAssign kv.1 (.str kv.2) a) acc), rest) := by
  intro args
  induction args with
  | nil => intro _ h; exact absurd rfl h
  | cons kv tl ih =>
    intro hsafe _ fuel hfuel acc rest
    obtain ⟨f, rfl⟩ : ∃ f, fuel = f + 1 := ⟨fuel - 1, by omega⟩
    obtain ⟨hk, hv⟩ := hsafe kv (List.mem_cons_self kv tl)
    cases tl with
    | nil =>
      rw [show renderMembers [kv] = renderQuoted kv.1 ++ ':' :: renderQuoted kv.2 from rfl]
      simp only [renderQuoted, List.cons_append, List.append_assoc,
        List.singleton_append, List.nil_append]
      rw [parseMembers]
      simp only []
      rw [safeStr] at hk
      rw [parseStrChars_safe (List.all_eq_true.mp hk)]
      simp only []
      rw [skipJsonWs_not_ws _ (by decide)]
      simp only []
      rw [skipJsonWs_not_ws _ (by decide)]
      rw [parseVal_str hv (by simp only [List.length_cons, List.length_nil] at hfuel; omega)]
      simp only []
      rw [skipJsonWs_not_ws _ (by decide)]
      simp only [List.foldl_cons, List.foldl_nil]
      split
      · rename_i r4 heq
        injection heq with h1 _
        exact absurd h1 (by decide)
      · rename_i d r4 heq
        injection heq with h1 h2
        subst h1
        subst h2
        rw [if_pos rfl]
      · rename_i heq
        exact List.noConfusion heq
    | cons kv2 tl2 =>
      rw [renderMembers]
      case x_1 => simp
      simp only [renderQuoted, List.cons_append, List.append_assoc,
        List.singleton_append, List.nil_append]
      rw [parseMembers]
      simp only []
      rw [safeStr] at hk
      rw [parseStrChars_safe (List.all_eq_true.mp hk)]
      simp only []
      rw [skipJsonWs_not_ws _ (by decide)]
      simp only []
      rw [skipJsonWs_not_ws _ (by decide)]
      rw [parseVal_str hv (by simp only [List.length_cons] at hfuel; omega)]
      simp only []
      rw [skipJsonWs_not_ws _ (by decide)]
      simp only []
      rw [renderMembers_cons_head kv2 tl2, List.cons_append,
        skipJsonWs_not_ws _ (by decide), ← List.cons_append, ← renderMembers_cons_head]
      rw [ih (fun p hp => hsafe p (List.mem_cons_of_mem kv hp)) (by simp) f
        (by simp only [List.length_cons] at hfuel ⊢; omega)]
      simp only [List.foldl_cons]

theorem parseVal_argsObj {args : List (String × String)}
    (hsafe : ∀ kv ∈ args, safeStr kv.1 = true ∧ safeStr kv.2 = true)
    {fuel : Nat} (hf : args.length + 3 ≤ fuel) (r : List Char) :
    parseVal fuel (Char.ofNat 123 :: (renderMembers args ++ Char.ofNat 125 :: r)) =
      some (.obj (args.foldl (fun a kv => objAssign kv.1 (.str kv.2) a) []), r) := by
  obtain ⟨f, rfl⟩ : ∃ f, fuel = f + 1 := ⟨fuel - 1, by omega⟩
  rw [parseVal]
  rw [if_neg (by decide), if_pos rfl]
  obtain ⟨f1, rfl⟩ : ∃ f1, f = f1 + 1 := ⟨f - 1, by omega⟩
  cases args with
  | nil =>
    rw [show renderMembers [] = [] from rfl, List.nil_append,
      skipJsonWs_not_ws _ (by decide)]
    rw [parseObjBody]
    rw [if_pos rfl]
    rfl
  | cons a tl =>
    rw [renderMembers_cons_head a tl, List.cons_append, skipJsonWs_not_ws _ (by decide)]
    rw [parseObjBody]
    rw [if_neg (by decide)]
    rw [← List.cons_append, ← renderMembers_cons_head]
    rw [parseMembers_render (a :: tl) hsafe (by simp) f1
      (by simp only [List.length_cons] at hf ⊢; omega)]

theorem stringMk_data (s : String) : String.mk s.data = s := rfl

theorem wfCall_keys_nodup {b : EncodedToolCall}
    (hnd : (b.args.map (fun kv => normalizeParamName kv.1 (.str b.name))).Nodup) :
    (b.args.map (fun kv => kv.1)).Nodup := by
  rw [show (fun kv : String × String => normalizeParamName kv.1 (JValue.str b.name)) =
      ((fun k => normalizeParamName k (JValue.str b.name)) ∘
        (fun kv : String × String => kv.1)) from rfl] at hnd
  rw [← List.map_map] at hnd
  exact List.Nodup.of_map _ hnd

theorem argsFold_eq_map {b : EncodedToolCall}
    (hnd : (b.args.map (fun kv => normalizeParamName kv.1 (.str b.name))).Nodup) :
    b.args.foldl (fun a kv => objAssign kv.1 (.str kv.2) a) [] =
      b.args.map (fun kv => (kv.1, JValue.str kv.2)) := by
  have hnodup : ((b.args.map (fun kv => (kv.1, JValue.str kv.2))).map Prod.fst).Nodup := by
    rw [List.map_map]
    simpa [Function.comp] using wfCall_keys_nodup hnd
  have h := foldl_objAssign_eq_append
    (b.args.map (fun kv => (kv.1, JValue.str kv.2))) [] (by simp) hnodup
  rw [List.foldl_map] at h
  simpa using h

theorem parseVal_renderJson (b : EncodedToolCall) (hwf : wfCall b) {fuel : Nat}
    (hF : b.args.length + 7 ≤ fuel) :
    parseVal fuel (skipJsonWs (renderJson b)) =
      some (.obj [((blockKeys b).1, .str b.name),
                  ((blockKeys b).2,
                   .obj (b.args.map (fun kv => (kv.1, JValue.str kv.2))))], []) := by
  obtain ⟨hne, hnm, hargs, hnd⟩ := hwf
  have hk1 : safeStr (blockKeys b).1 = true := by
    rw [blockKeys]; split <;> decide
  have hk2 : safeStr (blockKeys b).2 = true := by
    rw [blockKeys]; split <;> decide
  have hkne : ¬ ((blockKeys b).1 = (blockKeys b).2) := by
    rw [blockKeys]; split <;> decide
  rw [renderJson, renderArgsObj]
  simp only [renderQuoted, List.cons_append, List.append_assoc,
    List.singleton_append, List.nil_append]
  rw [skipJsonWs_not_ws _ (by decide)]
  obtain ⟨F, rfl⟩ : ∃ F, fuel = F + 1 := ⟨fuel - 1, by omega⟩
  rw [parseVal]
  rw [if_neg (by decide), if_pos rfl]
  rw [skipJsonWs_not_ws _ (by decide)]
  obtain ⟨F1, rfl⟩ : ∃ F1, F = F1 + 1 := ⟨F - 1, by omega⟩
  rw [parseObjBody]
  rw [if_neg (by decide)]
  obtain ⟨F2, rfl⟩ : ∃ F2, F1 = F2 + 1 := ⟨F1 - 1, by omega⟩
  rw [parseMembers]
  simp only []
  rw [safeStr] at hk1
  rw [parseStrChars_safe (List.all_eq_true.mp hk1)]
  simp only []
  rw [skipJsonWs_not_ws _ (by decide)]
  simp only []
  rw [skipJsonWs_not_ws _ (by decide)]
  rw [parseVal_str hnm (by omega)]
  simp only []
  rw [skipJsonWs_not_ws _ (by decide)]
  simp only []
  rw [skipJsonWs_not_ws _ (by decide)]
  obtain ⟨F3, rfl⟩ : ∃ F3, F2 = F3 + 1 := ⟨F2 - 1, by omega⟩
  rw [parseMembers]
  simp only []
  rw [safeStr] at hk2
  rw [parseStrChars_safe (List.all_eq_true.mp hk2)]
  simp only []
  rw [skipJsonWs_not_ws _ (by decide)]
  simp only []
  rw [skipJsonWs_not_ws _ (by decide)]
  rw [parseVal_argsObj hargs (by omega)]
  simp only []
  rw [skipJsonWs_not_ws _ (by decide)]
  split
  · rename_i r4 heq
    injection heq with h1 _
    exact absurd h1 (by decide)
  · rename_i d r4 heq
    injection heq with h1 h2
    subst h1
    subst h2
    rw [if_pos rfl]
    rw [stringMk_data, stringMk_data]
    simp only [objAssign, if_neg hkne]
    rw [argsFold_eq_map hnd]
  · rename_i heq
    exact List.noConfusion heq

theorem jsonParse_renderJson (b : EncodedToolCall) (hwf : wfCall b) :
    jsonParse (renderJson b) =
      some (.obj [((blockKeys b).1, .str b.name),
                  ((blockKeys b).2,
                   .obj (b.args.map (fun kv => (kv.1, JValue.str kv.2))))]) := by
  have hlen := renderMembers_length b.args
  have hL : b.args.length + 5 ≤ 2 * (renderJson b).length := by
    rw [renderJson, renderArgsObj]
    simp only [renderQuoted, List.length_cons, List.length_append,
      List.length_singleton]
    omega
  rw [jsonParse]
  rw [parseVal_renderJson b hwf (by omega)]
  rfl

theorem normalizeArguments_pairs {b : EncodedToolCall}
    (hnd : (b.args.map (fun kv => normalizeParamName kv.1 (.str b.name))).Nodup) :
    normalizeArguments (.obj (b.args.map (fun kv => (kv.1, JValue.str kv.2))))
        (.str b.name) =
      b.args.map (fun kv => (normalizeParamName kv.1 (.str b.name), JValue.str kv.2)) := by
  rw [normalizeArguments]
  rw [show jsEntries (.obj (b.args.map (fun kv => (kv.1, JValue.str kv.2)))) =
      b.args.map (fun kv => (kv.1, JValue.str kv.2)) from rfl]
  have hnodup : ((b.args.map
      (fun kv => (normalizeParamName kv.1 (.str b.name), JValue.str kv.2))).map
        Prod.fst).Nodup := by
    rw [List.map_map]
    simpa [Function.comp] using hnd
  have h := foldl_objAssign_eq_append
    (b.args.map (fun kv => (normalizeParamName kv.1 (.str b.name), JValue.str kv.2)))
    [] (by simp) hnodup
  rw [List.foldl_map] at h
  rw [List.foldl_map]
  simpa using h

theorem xmlEmit_renderJson (b : EncodedToolCall) (hwf : wfCall b) :
    xmlEmit (renderJson b) = some (expectedCall b) := by
  have hnd := hwf.2.2.2
  have hne := hwf.1
  rw [xmlEmit]
  rw [jsonParse_renderJson b hwf]
  simp only []
  have htr : jsTruthy (some (.str b.name)) = true := by
    simp only [jsTruthy, bne_iff_ne, ne_eq, decide_eq_true_eq]
    exact hne
  rw [blockKeys] at *
  by_cases hshape : b.useToolShape
  · rw [if_pos hshape] at *
    rw [show jsProp (JValue.obj [("tool", JValue.str b.name),
        ("args", JValue.obj (b.args.map (fun kv => (kv.1, JValue.str kv.2))))]) "name" =
        none from rfl]
    rw [show jsProp (JValue.obj [("tool", JValue.str b.name),
        ("args", JValue.obj (b.args.map (fun kv => (kv.1, JValue.str kv.2))))]) "tool" =
        some (JValue.str b.name) from rfl]
    rw [show jsProp (JValue.obj [("tool", JValue.str b.name),
        ("args", JValue.obj (b.args.map (fun kv => (kv.1, JValue.str kv.2))))]) "args" =
        some (JValue.obj (b.args.map (fun kv => (kv.1, JValue.str kv.2)))) from rfl]
    simp only [jsTruthy, Bool.false_and, Bool.and_true, if_false]
    rw [if_pos (show (b.name != "") = true by
      simp only [bne_iff_ne, ne_eq, decide_eq_true_eq]; exact hne)]
    simp only [Option.getD_some]
    rw [normalizeArguments_pairs hnd]
    rw [expectedCall]
    simp
  · rw [if_neg hshape] at *
    rw [show jsProp (JValue.obj [("name", JValue.str b.name),
        ("arguments", JValue.obj (b.args.map (fun kv => (kv.1, JValue.str kv.2))))]) "name" =
        some (JValue.str b.name) from rfl]
    rw [show jsProp (JValue.obj [("name", JValue.str b.name),
        ("arguments", JValue.obj (b.args.map (fun kv => (kv.1, JValue.str kv.2))))])
        "arguments" =
        some (JValue.obj (b.args.map (fun kv => (kv.1, JValue.str kv.2)))) from rfl]
    rw [show jsTruthy (some (JValue.obj
        (b.args.map (fun kv => (kv.1, JValue.str kv.2))))) = true from rfl]
    rw [htr]
    rw [if_pos (show (true && true) = true from rfl)]
    simp only [Option.getD_some]
    rw [normalizeArguments_pairs hnd]
    rw [expectedCall]

theorem closeTagAfterWs_brace (t : List Char) :
    closeTagAfterWs (Char.ofNat 125 :: t) = none := by
  rw [closeTagAfterWs]
  rw [skipJsWs_not_ws _ (by decide)]
  rw [show "</xml>".data = '<' :: "/xml>".data from rfl,
    stripLit_cons_ne (by decide)]
  rw [show "</tools>".data = '<' :: "/tools>".data from rfl,
    stripLit_cons_ne (by decide)]

theorem closeTagAfterWs_xml (r : List Char) :
    closeTagAfterWs ((['<', '/', 'x', 'm', 'l', '>'] : List Char) ++ r) = some r := by
  rw [closeTagAfterWs]
  rw [show (['<', '/', 'x', 'm', 'l', '>'] : List Char) ++ r =
    '<' :: ("/xml>".data ++ r) from rfl]
  rw [skipJsWs_not_ws _ (by decide)]
  rw [show '<' :: ("/xml>".data ++ r) = "</xml>".data ++ r from rfl]
  rw [stripLit_self]

theorem closeTagAfterWs_tools (r : List Char) :
    closeTagAfterWs ((['<', '/', 't', 'o', 'o', 'l', 's', '>'] : List Char) ++ r) =
      some r := by
  rw [closeTagAfterWs]
  rw [show (['<', '/', 't', 'o', 'o', 'l', 's', '>'] : List Char) ++ r =
    '<' :: '/' :: 't' :: ("ools>".data ++ r) from rfl]
  rw [skipJsWs_not_ws _ (by decide)]
  rw [show "</xml>".data = '<' :: '/' :: 'x' :: "ml>".data from rfl]
  rw [show stripLit ('<' :: '/' :: 'x' :: "ml>".data)
      ('<' :: '/' :: 't' :: ("ools>".data ++ r)) = none from by
    rw [stripLit, if_pos rfl, stripLit, if_pos rfl, stripLit_cons_ne (by decide)]]
  rw [show '<' :: '/' :: 't' :: ("ools>".data ++ r) = "</tools>".data ++ r from rfl]
  rw [stripLit_self]

theorem safeStr_no_close {s : String} (hs : safeStr s = true) :
    ∀ c ∈ s.data, ¬ c = Char.ofNat 125 := by
  intro c hc
  rw [safeStr] at hs
  exact (safeStrChar_spec (List.all_eq_true.mp hs c hc)).2.2.2.1

theorem renderQuoted_no_close {s : String} (hs : safeStr s = true) :
    ∀ c ∈ renderQuoted s, ¬ c = Char.ofNat 125 := by
  intro c hc
  rw [renderQuoted] at hc
  rcases List.mem_append.mp hc with h | h
  · rcases List.mem_cons.mp h with h1 | h1
    · subst h1; decide
    · exact safeStr_no_close hs c h1
  · have h1 := List.mem_singleton.mp h
    subst h1; decide

theorem renderMembers_no_close :
    ∀ {args : List (String × String)},
      (∀ kv ∈ args, safeStr kv.1 = true ∧ safeStr kv.2 = true) →
      ∀ c ∈ renderMembers args, ¬ c = Char.ofNat 125 := by
  intro args
  induction args with
  | nil => intro _ c hc; simp [renderMembers] at hc
  | cons kv tl ih =>
    intro hsafe c hc
    obtain ⟨hk, hv⟩ := hsafe kv (List.mem_cons_self kv tl)
    cases tl with
    | nil =>
      rw [show renderMembers [kv] = renderQuoted kv.1 ++ ':' :: renderQuoted kv.2
        from rfl] at hc
      rcases List.mem_append.mp hc with h | h
      · exact renderQuoted_no_close hk c h
      · rcases List.mem_cons.mp h with h1 | h1
        · subst h1; decide
        · exact renderQuoted_no_close hv c h1
    | cons kv2 tl2 =>
      rw [renderMembers] at hc
      case x_1 => simp
      rcases List.mem_append.mp hc with h | h
      · rcases List.mem_append.mp h with h1 | h1
        · exact renderQuoted_no_close hk c h1
        · rcases List.mem_cons.mp h1 with h2 | h2
          · subst h2; decide
          · exact renderQuoted_no_close hv c h2
      · rcases List.mem_cons.mp h with h1 | h1
        · subst h1; decide
        · exact ih (fun p hp => hsafe p (List.mem_cons_of_mem kv hp)) c h1

theorem lazyClose_render :
    ∀ {pre : List Char}, (∀ c ∈ pre, ¬ c = Char.ofNat 125) →
      ∀ {tail r : List Char}, closeTagAfterWs tail = some r →
      lazyClose (pre ++ Char.ofNat 125 :: Char.ofNat 125 :: tail) =
        some (pre ++ [Char.ofNat 125], r) := by
  intro pre
  induction pre with
  | nil =>
    intro _ tail r hct
    rw [List.nil_append, lazyClose]
    rw [if_pos rfl]
    rw [closeTagAfterWs_brace]
    simp only []
    rw [lazyClose]
    rw [if_pos rfl, hct]
    rfl
  | cons c pre' ih =>
    intro hno tail r hct
    rw [List.cons_append, lazyClose]
    rw [if_neg (hno c (List.mem_cons_self c pre'))]
    rw [ih (fun d hd => hno d (List.mem_cons_of_mem c hd)) hct]
    rfl

theorem stripLit_xml_tools (X : List Char) :
    stripLit ['<', 'x', 'm', 'l', '>'] ((['<', 't', 'o', 'o', 'l', 's', '>'] : List Char) ++ X) =
      none := by
  rw [show (['<', 't', 'o', 'o', 'l', 's', '>'] : List Char) ++ X =
    '<' :: 't' :: (['o', 'o', 'l', 's', '>'] ++ X) from rfl]
  rw [stripLit, if_pos rfl]
  exact stripLit_cons_ne (by decide)

theorem matchXMLAt_renderBlock (b : EncodedToolCall) (hwf : wfCall b) (rest : List Char) :
    matchXMLAt (renderBlock b ++ rest) = some (renderJson b, rest) := by
  obtain ⟨hne, hnm, hargs, hnd⟩ := hwf
  have hk1 : safeStr (blockKeys b).1 = true := by
    rw [blockKeys]; split <;> decide
  have hk2 : safeStr (blockKeys b).2 = true := by
    rw [blockKeys]; split <;> decide
  have hpre : ∀ c ∈ (renderQuoted (blockKeys b).1 ++ ':' :: renderQuoted b.name ++
      ',' :: renderQuoted (blockKeys b).2 ++ ':' :: Char.ofNat 123 ::
      renderMembers b.args), ¬ c = Char.ofNat 125 := by
    simp only [List.forall_mem_append, List.forall_mem_cons]
    exact ⟨⟨⟨renderQuoted_no_close hk1, by decide, renderQuoted_no_close hnm⟩,
      by decide, renderQuoted_no_close hk2⟩, by decide, by decide,
      renderMembers_no_close hargs⟩
  rw [renderBlock]
  by_cases htag : b.useToolsTag = true
  · rw [if_pos htag, if_pos htag]
    rw [matchXMLAt]
    simp only [List.append_assoc]
    rw [stripLit_xml_tools, stripLit_self]
    simp only []
    rw [show renderJson b ++ ((['<', '/', 't', 'o', 'o', 'l', 's', '>'] : List Char) ++ rest) =
      Char.ofNat 123 :: ((renderQuoted (blockKeys b).1 ++ ':' :: renderQuoted b.name ++
        ',' :: renderQuoted (blockKeys b).2 ++ ':' :: Char.ofNat 123 ::
        renderMembers b.args) ++
        (Char.ofNat 125 :: Char.ofNat 125 ::
          ((['<', '/', 't', 'o', 'o', 'l', 's', '>'] : List Char) ++ rest))) from by
      simp [renderJson, renderArgsObj]]
    rw [skipJsWs_not_ws _ (by decide)]
    simp only []
    rw [if_pos trivial]
    rw [lazyClose_render hpre (closeTagAfterWs_tools rest)]
    simp [renderJson, renderArgsObj]
  · rw [if_neg htag, if_neg htag]
    rw [matchXMLAt]
    simp only [List.append_assoc]
    rw [stripLit_self]
    simp only []
    rw [show renderJson b ++ ((['<', '/', 'x', 'm', 'l', '>'] : List Char) ++ rest) =
      Char.ofNat 123 :: ((renderQuoted (blockKeys b).1 ++ ':' :: renderQuoted b.name ++
        ',' :: renderQuoted (blockKeys b).2 ++ ':' :: Char.ofNat 123 ::
        renderMembers b.args) ++
        (Char.ofNat 125 :: Char.ofNat 125 ::
          ((['<', '/', 'x', 'm', 'l', '>'] : List Char) ++ rest))) from by
      simp [renderJson, renderArgsObj]]
    rw [skipJsWs_not_ws _ (by decide)]
    simp only []
    rw [if_pos trivial]
    rw [lazyClose_render hpre (closeTagAfterWs_xml rest)]
    simp [renderJson, renderArgsObj]

theorem safeProseChar_spec {c : Char} (h : safeProseChar c = true) :
    ¬ c = '<' ∧ ¬ c = Char.ofNat 123 ∧ ¬ c = '(' := by
  simp only [safeProseChar, Bool.not_eq_true', Bool.or_eq_false_iff,
    decide_eq_false_iff_not] at h
  exact ⟨h.1.1, h.1.2, h.2⟩

theorem scanStep_none {α : Type} {f : List Char → Option (α × List Char)}
    {l : List Char} (h : f l = none) : scanStep f l = none := by
  simp [scanStep, h]

theorem scanAll_of_suffix_none {α : Type} {f : List Char → Option (α × List Char)} :
    ∀ {l : List Char}, (∀ s, s <:+ l → s ≠ [] → f s = none) → scanAll f l = [] := by
  intro l
  induction l with
  | nil => intro _; exact scanAll_nil f
  | cons c cs ih =>
    intro h
    rw [scanAll_cons_none (scanStep_none (h (c :: cs) (List.suffix_refl _) (by simp)))]
    exact ih (fun s hs hne => h s (hs.trans (List.suffix_cons c cs)) hne)

theorem scanAll_xml_prose_skip :
    ∀ {lead : List Char} (tail : List Char),
      (∀ c ∈ lead, safeProseChar c = true) →
      scanAll matchXMLAt (lead ++ tail) = scanAll matchXMLAt tail := by
  intro lead
  induction lead with
  | nil => intro tail _; rw [List.nil_append]
  | cons c lead' ih =>
    intro tail h
    have hc := safeProseChar_spec (h c (List.mem_cons_self c lead'))
    rw [List.cons_append,
      scanAll_cons_none (scanStep_none (matchXMLAt_cons_ne hc.1)),
      ih tail (fun d hd => h d (List.mem_cons_of_mem c hd))]

theorem renderBlock_length_pos (b : EncodedToolCall) : 0 < (renderBlock b).length := by
  rw [renderBlock]
  by_cases htag : b.useToolsTag = true
  · rw [if_pos htag]
    simp
  · rw [if_neg htag]
    simp

theorem scanAll_xml_items :
    ∀ {items : List (EncodedToolCall × List Char)},
      (∀ it ∈ items, wfCall it.1 ∧ ∀ c ∈ it.2, safeProseChar c = true) →
      scanAll matchXMLAt (items.flatMap (fun it => renderBlock it.1 ++ it.2)) =
        items.map (fun it => renderJson it.1) := by
  intro items
  induction items with
  | nil => intro _; exact scanAll_nil _
  | cons it items' ih =>
    intro h
    obtain ⟨hwf, hmid⟩ := h it (List.mem_cons_self it items')
    rw [List.flatMap_cons, List.append_assoc]
    have hstep : scanStep matchXMLAt
        (renderBlock it.1 ++ (it.2 ++ items'.flatMap (fun it => renderBlock it.1 ++ it.2))) =
        some (renderJson it.1, it.2 ++ items'.flatMap (fun it => renderBlock it.1 ++ it.2)) := by
      rw [scanStep, matchXMLAt_renderBlock it.1 hwf]
      simp only [Option.some_bind]
      rw [if_pos (by
        simp only [List.length_append]
        have := renderBlock_length_pos it.1
        omega)]
    rw [scanAll_eq_cons (by
        intro hnil
        have hp := renderBlock_length_pos it.1
        have hz : (renderBlock it.1 ++
            (it.2 ++ items'.flatMap (fun it => renderBlock it.1 ++ it.2))).length = 0 := by
          rw [hnil]; rfl
        simp only [List.length_append] at hz
        omega) hstep]
    rw [scanAll_xml_prose_skip _ hmid]
    rw [ih (fun p hp => h p (List.mem_cons_of_mem it hp))]
    rw [List.map_cons]

theorem matchFnCBAt_no_paren {n l : List Char}
    (h : ∀ c ∈ l, ¬ c = '(') : matchFnCBAt n l = none := by
  unfold matchFnCBAt
  split
  · rfl
  · rename_i r1 h1
    apply firstSome_eq_none
    intro s1 hs1
    have hs1l : s1 <:+ l := (mem_greedySplits hs1).trans (stripLit_suffix h1)
    split
    · rfl
    · rename_i r2 h2
      split
      · rename_i r3 h3
        have : '(' ∈ l := by
          have hsub : '(' :: r3 <:+ l :=
            ((h3 ▸ skipJsWs_suffix r2).trans (stripLit_suffix h2)).trans hs1l
          exact hsub.subset (List.mem_cons_self _ _)
        exact absurd rfl (h '(' this)
      · rfl

theorem filterMap_xmlEmit_map :
    ∀ {items : List (EncodedToolCall × List Char)},
      (∀ it ∈ items, wfCall it.1) →
      (items.map (fun it => renderJson it.1)).filterMap xmlEmit =
        items.map (fun it => expectedCall it.1) := by
  intro items
  induction items with
  | nil => intro _; rfl
  | cons it items' ih =>
    intro h
    rw [List.map_cons, List.filterMap_cons_some
      (xmlEmit_renderJson it.1 (h it (List.mem_cons_self it items')))]
    rw [ih (fun p hp => h p (List.mem_cons_of_mem it hp)), List.map_cons]

theorem parseXML_renderText (t : EncodedText) (h : wfText t) :
    parseXMLWrappedJSON (renderText t) =
      t.items.map (fun it => expectedCall it.1) := by
  rw [parseXMLWrappedJSON, renderText, scanAll_xml_prose_skip _ h.1,
    scanAll_xml_items h.2, filterMap_xmlEmit_map (fun it hit => (h.2 it hit).1)]

theorem prose_strategies_empty {lead : List Char}
    (h : ∀ c ∈ lead, safeProseChar c = true) :
    parseJSONToolCalls lead = [] ∧ parseFunctionCallFormat lead = [] := by
  have hbare : scanAll matchBareAt lead = [] := scanAll_of_suffix_none (by
    intro s hs hne
    cases s with
    | nil => exact absurd rfl hne
    | cons c cs =>
      exact matchBareAt_cons_ne
        (safeProseChar_spec (h c (hs.subset (List.mem_cons_self c cs)))).2.1)
  have hcb : scanAll matchCBAt lead = [] := scanAll_of_suffix_none (fun s hs _ =>
    matchCBAt_no_brace (fun c hc => (safeProseChar_spec (h c (hs.subset hc))).2.1))
  have hfn : ∀ n : List Char, scanAll (matchFnAt n) lead = [] := fun n =>
    scanAll_of_suffix_none (fun s hs _ =>
      matchFnAt_no_paren (fun c hc => (safeProseChar_spec (h c (hs.subset hc))).2.2))
  have hfncb : ∀ n : List Char, scanAll (matchFnCBAt n) lead = [] := fun n =>
    scanAll_of_suffix_none (fun s hs _ =>
      matchFnCBAt_no_paren (fun c hc => (safeProseChar_spec (h c (hs.subset hc))).2.2))
  refine ⟨?_, ?_⟩
  · rw [parseJSONToolCalls, parseBareJSON, parseCodeBlockJSON, hbare, hcb]
    rfl
  · have hext : ∀ n : String, extractFunctionCalls lead n = [] := by
      intro n
      rw [extractFunctionCalls, hfn n.data, hfncb n.data]
      rfl
    rw [parseFunctionCallFormat]
    simp [hext]

/-- C1 (corrected, amended claim): for every text whose tool calls are
encoded as well-formed delimited-JSON blocks — safe (quote-, backslash-,
brace- and control-free) name, keys and values, distinct normalized
keys, and surrounding prose free of `<`, `{` and `(` — `parseToolCalls`
returns exactly the encoded `(name, args)` pairs, in order of
appearance, with every argument key passed through `normalizeParamName`. -/
theorem claim1_amended_roundtrip (t : EncodedText) (h : wfText t) :
    parseToolCallsL (renderText t) =
      t.items.map (fun it => expectedCall it.1) := by
  have hxml := parseXML_renderText t h
  simp only [parseToolCallsL]
  rw [hxml]
  cases hitems : t.items with
  | cons it0 rest =>
    rw [if_neg (by simp)]
  | nil =>
    rw [if_pos (show (List.map (fun it => expectedCall it.1)
      ([] : List (EncodedToolCall × List Char))).length = 0 from rfl)]
    rw [renderText, hitems]
    simp only [List.flatMap_nil, List.append_nil]
    obtain ⟨hjson, hfn⟩ := prose_strategies_empty h.1
    rw [hjson, if_pos (show ([] : List FunctionCall).length = 0 from rfl), hfn]
    rfl

/-- The round-trip theorem applied to a concrete two-block text. -/
theorem claim1_amended_roundtrip_witness :
    wfText wfTextDemo ∧
    parseToolCallsL (renderText wfTextDemo) =
      wfTextDemo.items.map (fun it => expectedCall it.1) :=
  ⟨by simp only [wfText, wfCall]; decide,
   claim1_amended_roundtrip wfTextDemo (by simp only [wfText, wfCall]; decide)⟩

end OllamaCli
